import Mathlib

set_option maxHeartbeats 1000000

namespace Gopack

/-- One dependency record. The file defining the Dep methods is not among the
sources; the fields follow the specification (section 3): an imported
identifier, the SCM kind, a source locator, at most one checkout spec
(kind plus literal value), and the fetch flag consulted by the traversal.
For the Graph component only the value stored at a leaf matters. -/
structure Dep where
  Import : String
  Scm : Option String := none
  Source : Option String := none
  CheckoutType : String := ""
  CheckoutSpec : String := ""
  fetch : Bool := false
deriving DecidableEq

/-- A trie node, from the source:
type Node struct has Key string, Dependency a Dep pointer, Leaf bool, and
Nodes, a Go map from string to Node pointers. The Go map is embedded as an
association list with unique keys; the Dep pointer as an Option Dep. -/
inductive Node where
  | mk (Key : String) (Dependency : Option Dep) (Leaf : Bool)
       (Nodes : List (String × Node))

/-- Field access for the Key field of a node. -/
def Node.Key : Node → String
  | .mk k _ _ _ => k

/-- Field access for the Dependency field of a node. -/
def Node.Dependency : Node → Option Dep
  | .mk _ d _ _ => d

/-- Field access for the Leaf field of a node. -/
def Node.Leaf : Node → Bool
  | .mk _ _ l _ => l

/-- Field access for the Nodes field of a node (the children map). -/
def Node.Nodes : Node → List (String × Node)
  | .mk _ _ _ ns => ns

/-- Go map read m[k]: the first binding of k, or nothing when k is absent. -/
def mapLookup {α : Type} (m : List (String × α)) (k : String) : Option α :=
  match m with
  | [] => none
  | (k2, v) :: rest => if k2 = k then some v else mapLookup rest k

/-- Go map write m[k] = v: replace the binding of k in place, or append it. -/
def mapInsert {α : Type} (m : List (String × α)) (k : String) (v : α) :
    List (String × α) :=
  match m with
  | [] => [(k, v)]
  | (k2, v2) :: rest =>
    if k2 = k then (k, v) :: rest else (k2, v2) :: mapInsert rest k v

/-- The Graph of the source: a root map from first segment to nodes. -/
structure Graph where
  Nodes : List (String × Node)

/-- NewGraph from the source: a graph with an empty root map. -/
def NewGraph : Graph := ⟨[]⟩

/-- Character level splitter matching the Go call strings.Split(s, "/"):
the string is cut at every slash, empty pieces are kept, and the result is
never empty (the empty string splits to one empty piece). -/
def splitAux : List Char → List Char → List String
  | [], acc => [String.mk acc.reverse]
  | c :: cs, acc =>
    if c = '/' then String.mk acc.reverse :: splitAux cs []
    else splitAux cs (c :: acc)

/-- The key segments of an identifier, as computed by strings.Split(s, "/"). -/
def splitKeys (s : String) : List String := splitAux s.data []

/-- The node found for the first key, or a fresh node keyed by it; this is the
found test at the top of deepInsert in the source. -/
def lookupOrNew (nodes : List (String × Node)) (k : String) : Node :=
  match mapLookup nodes k with
  | some n => n
  | none => Node.mk k none false []

/-- deepInsert from the source: read or create the node of the first key;
with no keys left mark it a leaf holding the dependency, otherwise insert
the remaining keys into its children map. The impossible empty key list
(strings.Split never returns an empty slice) yields a junk node. -/
def deepInsert (nodes : List (String × Node)) (keys : List String)
    (dependency : Dep) : Node :=
  match keys with
  | [] => Node.mk "" none false []
  | k :: newKeys =>
    let node := lookupOrNew nodes k
    match newKeys with
    | [] => Node.mk node.Key (some dependency) true node.Nodes
    | k2 :: _ =>
      Node.mk node.Key node.Dependency node.Leaf
        (mapInsert node.Nodes k2 (deepInsert node.Nodes newKeys dependency))

/-- The map level effect of Insert: the source writes
graph.Nodes[keys[0]] = deepInsert(graph.Nodes, keys, dependency). -/
def insertKeys (m : List (String × Node)) (keys : List String) (d : Dep) :
    List (String × Node) :=
  match keys with
  | [] => m
  | k :: _ => mapInsert m k (deepInsert m keys d)

/-- Graph.Insert from the source: split the import identifier and deep
insert the dependency along the resulting keys. -/
def Graph.Insert (graph : Graph) (dependency : Dep) : Graph :=
  ⟨insertKeys graph.Nodes (splitKeys dependency.Import) dependency⟩

/-- The loop of Graph.Search from the source: follow the keys through the
children maps; a missing child aborts with nothing, the first leaf found is
returned, and running out of keys returns nothing. -/
def searchLoop : List (String × Node) → List String → Option Node
  | _, [] => none
  | nodes, key :: keys =>
    match mapLookup nodes key with
    | none => none
    | some node =>
      if node.Leaf then some node else searchLoop node.Nodes keys

/-- Graph.Search from the source: split the import path and walk the trie. -/
def Graph.Search (graph : Graph) (importPath : String) : Option Node :=
  searchLoop graph.Nodes (splitKeys importPath)

/-- A whole sequence of insertions, first to last. -/
def insertAll (g : Graph) (ds : List Dep) : Graph := ds.foldl Graph.Insert g

/-- Pure trie addressing used by the proofs: follow exactly the given keys
(never stopping at a leaf) and return the node reached, if any. -/
def walk : List (String × Node) → List String → Option Node
  | _, [] => none
  | m, k :: keys =>
    match mapLookup m k, keys with
    | none, _ => none
    | some n, [] => some n
    | some n, _ :: _ => walk n.Nodes keys

/-- The observable status of the node at a path: its leaf flag and its
stored dependency. -/
def walkStatus (m : List (String × Node)) (p : List String) :
    Option (Bool × Option Dep) :=
  (walk m p).map (fun n => (n.Leaf, n.Dependency))

/-- Boolean test that the first list is an initial run of the second. -/
def isStem : List String → List String → Bool
  | [], _ => true
  | _ :: _, [] => false
  | a :: as, b :: bs => a == b && isStem as bs

@[simp] theorem Node.Key_mk (k : String) (d : Option Dep) (l : Bool)
    (ns : List (String × Node)) : (Node.mk k d l ns).Key = k := rfl

@[simp] theorem Node.Dependency_mk (k : String) (d : Option Dep) (l : Bool)
    (ns : List (String × Node)) : (Node.mk k d l ns).Dependency = d := rfl

@[simp] theorem Node.Leaf_mk (k : String) (d : Option Dep) (l : Bool)
    (ns : List (String × Node)) : (Node.mk k d l ns).Leaf = l := rfl

@[simp] theorem Node.Nodes_mk (k : String) (d : Option Dep) (l : Bool)
    (ns : List (String × Node)) : (Node.mk k d l ns).Nodes = ns := rfl

theorem splitAux_ne_nil : ∀ (cs acc : List Char), splitAux cs acc ≠ [] := by
  intro cs
  induction cs with
  | nil => intro acc; simp [splitAux]
  | cons c cs ih =>
    intro acc
    by_cases h : c = '/'
    · simp [splitAux, h]
    · simp only [splitAux, if_neg h]
      exact ih _

theorem splitKeys_ne_nil (s : String) : splitKeys s ≠ [] :=
  splitAux_ne_nil s.data []

theorem mapLookup_insert_self {α : Type} (m : List (String × α)) (k : String)
    (v : α) : mapLookup (mapInsert m k v) k = some v := by
  induction m with
  | nil => simp [mapInsert, mapLookup]
  | cons p rest ih =>
    obtain ⟨k2, v2⟩ := p
    by_cases h : k2 = k <;> simp [mapInsert, mapLookup, h, ih]

theorem mapLookup_insert_ne {α : Type} (m : List (String × α)) (k k2 : String)
    (v : α) (h : k ≠ k2) : mapLookup (mapInsert m k v) k2 = mapLookup m k2 := by
  induction m with
  | nil =>
    simp only [mapInsert, mapLookup]
    rw [if_neg h]
  | cons p rest ih =>
    obtain ⟨k3, v3⟩ := p
    by_cases h3 : k3 = k
    · subst h3
      simp only [mapInsert, if_pos rfl, mapLookup]
      rw [if_neg h, if_neg h]
    · simp only [mapInsert, if_neg h3, mapLookup]
      by_cases h4 : k3 = k2
      · rw [if_pos h4, if_pos h4]
      · rw [if_neg h4, if_neg h4]
        exact ih

theorem walk_single (m : List (String × Node)) (k : String) :
    walk m [k] = mapLookup m k := by
  cases h : mapLookup m k <;> simp [walk, h]

theorem walkStatus_nil (m : List (String × Node)) : walkStatus m [] = none := rfl

theorem walkStatus_single (m : List (String × Node)) (k : String) :
    walkStatus m [k] = (mapLookup m k).map (fun n => (n.Leaf, n.Dependency)) := by
  rw [walkStatus, walk_single]

theorem walkStatus_cons_some (m : List (String × Node)) (k : String) (n : Node)
    (k2 : String) (rest : List String) (h : mapLookup m k = some n) :
    walkStatus m (k :: k2 :: rest) = walkStatus n.Nodes (k2 :: rest) := by
  simp [walkStatus, walk, h]

theorem walkStatus_cons_none (m : List (String × Node)) (k : String)
    (k2 : String) (rest : List String) (h : mapLookup m k = none) :
    walkStatus m (k :: k2 :: rest) = none := by
  simp [walkStatus, walk, h]

theorem walkStatus_nilmap (p : List String) : walkStatus [] p = none := by
  cases p with
  | nil => rfl
  | cons k rest =>
    cases rest with
    | nil => simp [walkStatus_single, mapLookup]
    | cons k2 r2 => exact walkStatus_cons_none _ _ _ _ rfl

theorem lookupOrNew_some (m : List (String × Node)) (k : String) (n : Node)
    (h : mapLookup m k = some n) : lookupOrNew m k = n := by
  simp [lookupOrNew, h]

theorem lookupOrNew_none (m : List (String × Node)) (k : String)
    (h : mapLookup m k = none) : lookupOrNew m k = Node.mk k none false [] := by
  simp [lookupOrNew, h]

theorem deepInsert_last (m : List (String × Node)) (k : String) (d : Dep) :
    deepInsert m [k] d
      = Node.mk (lookupOrNew m k).Key (some d) true (lookupOrNew m k).Nodes := rfl

theorem deepInsert_cons (m : List (String × Node)) (k k2 : String)
    (rest : List String) (d : Dep) :
    deepInsert m (k :: k2 :: rest) d
      = Node.mk (lookupOrNew m k).Key (lookupOrNew m k).Dependency
          (lookupOrNew m k).Leaf
          (insertKeys (lookupOrNew m k).Nodes (k2 :: rest) d) := rfl

theorem insertKeys_cons (m : List (String × Node)) (k : String)
    (rest : List String) (d : Dep) :
    insertKeys m (k :: rest) d = mapInsert m k (deepInsert m (k :: rest) d) := rfl

/-- Inserting along keys makes the node at exactly those keys a leaf holding
the dependency. -/
theorem walkStatus_insertKeys_self :
    ∀ (keys : List String) (m : List (String × Node)) (d : Dep), keys ≠ [] →
      walkStatus (insertKeys m keys d) keys = some (true, some d) := by
  intro keys
  induction keys with
  | nil => intro m d h; exact absurd rfl h
  | cons k rest ih =>
    intro m d _
    cases rest with
    | nil =>
      rw [insertKeys_cons, walkStatus_single,
        mapLookup_insert_self m k (deepInsert m [k] d), deepInsert_last]
      simp
    | cons k2 rest2 =>
      rw [insertKeys_cons,
        walkStatus_cons_some _ k (deepInsert m (k :: k2 :: rest2) d) k2 rest2
          (mapLookup_insert_self m k _), deepInsert_cons]
      simpa using ih (lookupOrNew m k).Nodes d (by simp)

/-- Inserting along keys leaves the status of a strict initial run of the
keys what it was, creating a fresh interior node when the run was absent. -/
theorem walkStatus_insertKeys_stem :
    ∀ (keys p : List String) (m : List (String × Node)) (d : Dep), p ≠ [] →
      isStem p keys = true → p ≠ keys →
      walkStatus (insertKeys m keys d) p
        = some ((walkStatus m p).getD (false, none)) := by
  intro keys
  induction keys with
  | nil =>
    intro p m d hne hstem _
    cases p with
    | nil => exact absurd rfl hne
    | cons p1 prest => simp [isStem] at hstem
  | cons k rest ih =>
    intro p m d hne hstem hnek
    cases p with
    | nil => exact absurd rfl hne
    | cons p1 prest =>
      simp only [isStem, Bool.and_eq_true, beq_iff_eq] at hstem
      obtain ⟨hpk, hstem2⟩ := hstem
      subst hpk
      cases prest with
      | nil =>
        cases rest with
        | nil => exact absurd rfl hnek
        | cons r2 rrest =>
          rw [insertKeys_cons, walkStatus_single,
            mapLookup_insert_self m p1 _, deepInsert_cons, walkStatus_single]
          cases hl : mapLookup m p1 with
          | none => rw [lookupOrNew_none m p1 hl]; simp
          | some n => rw [lookupOrNew_some m p1 n hl]; simp
      | cons p2 prest2 =>
        cases rest with
        | nil => simp [isStem] at hstem2
        | cons r2 rrest =>
          rw [insertKeys_cons,
            walkStatus_cons_some _ p1 (deepInsert m (p1 :: r2 :: rrest) d) p2
              prest2 (mapLookup_insert_self m p1 _), deepInsert_cons]
          have htl : (p2 :: prest2) ≠ (r2 :: rrest) := by
            intro h; exact hnek (by rw [h])
          rw [Node.Nodes_mk,
            ih (p2 :: prest2) (lookupOrNew m p1).Nodes d (by simp) hstem2 htl]
          cases hl : mapLookup m p1 with
          | none =>
            rw [lookupOrNew_none m p1 hl, walkStatus_cons_none m p1 p2 prest2 hl]
            simp [walkStatus_nilmap]
          | some n =>
            rw [lookupOrNew_some m p1 n hl,
              walkStatus_cons_some m p1 n p2 prest2 hl]

/-- Inserting along keys does not change the status of a path that is not an
initial run of the keys. -/
theorem walkStatus_insertKeys_out :
    ∀ (keys p : List String) (m : List (String × Node)) (d : Dep),
      isStem p keys = false →
      walkStatus (insertKeys m keys d) p = walkStatus m p := by
  intro keys
  induction keys with
  | nil => intro p m d _; rfl
  | cons k rest ih =>
    intro p m d hstem
    cases p with
    | nil => simp [isStem] at hstem
    | cons p1 prest =>
      by_cases hpk : p1 = k
      · subst hpk
        have hstem2 : isStem prest rest = false := by
          simpa [isStem] using hstem
        cases prest with
        | nil => simp [isStem] at hstem2
        | cons p2 prest2 =>
          rw [insertKeys_cons,
            walkStatus_cons_some _ p1 (deepInsert m (p1 :: rest) d) p2 prest2
              (mapLookup_insert_self m p1 _)]
          cases rest with
          | nil =>
            rw [deepInsert_last, Node.Nodes_mk]
            cases hl : mapLookup m p1 with
            | none =>
              rw [lookupOrNew_none m p1 hl,
                walkStatus_cons_none m p1 p2 prest2 hl]
              simp [walkStatus_nilmap]
            | some n =>
              rw [lookupOrNew_some m p1 n hl,
                walkStatus_cons_some m p1 n p2 prest2 hl]
          | cons r2 rrest =>
            rw [deepInsert_cons, Node.Nodes_mk,
              ih (p2 :: prest2) (lookupOrNew m p1).Nodes d hstem2]
            cases hl : mapLookup m p1 with
            | none =>
              rw [lookupOrNew_none m p1 hl,
                walkStatus_cons_none m p1 p2 prest2 hl]
              simp [walkStatus_nilmap]
            | some n =>
              rw [lookupOrNew_some m p1 n hl,
                walkStatus_cons_some m p1 n p2 prest2 hl]
      · have hlk : mapLookup (mapInsert m k (deepInsert m (k :: rest) d)) p1
            = mapLookup m p1 :=
          mapLookup_insert_ne m k p1 _ (fun h => hpk h.symm)
        cases prest with
        | nil => rw [insertKeys_cons, walkStatus_single, hlk, walkStatus_single]
        | cons p2 prest2 =>
          cases hl : mapLookup m p1 with
          | none =>
            rw [insertKeys_cons,
              walkStatus_cons_none _ p1 p2 prest2 (hlk.trans hl),
              walkStatus_cons_none m p1 p2 prest2 hl]
          | some n =>
            rw [insertKeys_cons,
              walkStatus_cons_some _ p1 n p2 prest2 (hlk.trans hl),
              walkStatus_cons_some m p1 n p2 prest2 hl]

theorem walk_cons_some (m : List (String × Node)) (k : String) (n : Node)
    (p2 : String) (rest : List String) (h : mapLookup m k = some n) :
    walk m (k :: p2 :: rest) = walk n.Nodes (p2 :: rest) := by
  simp [walk, h]

theorem walk_cons_none (m : List (String × Node)) (k : String)
    (p2 : String) (rest : List String) (h : mapLookup m k = none) :
    walk m (k :: p2 :: rest) = none := by
  simp [walk, h]

theorem isStem_cons_same (a : String) (as bs : List String) :
    isStem (a :: as) (a :: bs) = isStem as bs := by
  simp [isStem]

theorem isStem_append_right : ∀ (ks suf : List String),
    isStem ks (ks ++ suf) = true := by
  intro ks
  induction ks with
  | nil => intro suf; rfl
  | cons a as ih => intro suf; simpa [isStem] using ih suf

theorem isStem_take : ∀ (p ks : List String), isStem p ks = true →
    p = ks.take p.length := by
  intro p
  induction p with
  | nil => intro ks _; rfl
  | cons a as ih =>
    intro ks h
    cases ks with
    | nil => simp [isStem] at h
    | cons b bs =>
      simp only [isStem, Bool.and_eq_true, beq_iff_eq] at h
      obtain ⟨hab, h2⟩ := h
      subst hab
      simpa [List.take] using ih bs h2

/-- The search loop returns the node of the leaf sitting at an initial run
of the queried keys, provided no shorter initial run carries a leaf. -/
theorem searchLoop_first_leaf :
    ∀ (ks : List String) (m : List (String × Node)) (n : Node)
      (suf : List String), ks ≠ [] →
      walk m ks = some n → n.Leaf = true →
      (∀ p, p ≠ [] → isStem p ks = true → p ≠ ks →
        ∀ u, walk m p = some u → u.Leaf = false) →
      searchLoop m (ks ++ suf) = some n := by
  intro ks
  induction ks with
  | nil => intro m n suf h; exact absurd rfl h
  | cons k rest ih =>
    intro m n suf _ hwalk hleaf hpre
    cases rest with
    | nil =>
      rw [walk_single] at hwalk
      simp [searchLoop, hwalk, hleaf]
    | cons k2 rest2 =>
      cases hlk : mapLookup m k with
      | none => rw [walk_cons_none m k k2 rest2 hlk] at hwalk; exact absurd hwalk (by simp)
      | some u =>
        rw [walk_cons_some m k u k2 rest2 hlk] at hwalk
        have huleaf : u.Leaf = false := by
          refine hpre [k] (by simp) (by simp [isStem]) (by simp) u ?_
          rw [walk_single]; exact hlk
        have hrec := ih u.Nodes n suf (by simp) hwalk hleaf ?_
        · simpa [searchLoop, hlk, huleaf] using hrec
        · intro p hp hst hpne v hv
          cases p with
          | nil => exact absurd rfl hp
          | cons q qs =>
            refine hpre (k :: q :: qs) (by simp) ?_ ?_ v ?_
            · rw [isStem_cons_same]; exact hst
            · intro hcontra
              exact hpne (by injection hcontra)
            · rw [walk_cons_some m k u q qs hlk]; exact hv

/-- The search loop returns nothing when no initial run of the queried keys
carries a leaf, whether the walk runs dry or runs out of keys. -/
theorem searchLoop_no_leaf :
    ∀ (ks : List String) (m : List (String × Node)),
      (∀ p, p ≠ [] → isStem p ks = true → ∀ u, walk m p = some u →
        u.Leaf = false) →
      searchLoop m ks = none := by
  intro ks
  induction ks with
  | nil => intro m _; rfl
  | cons k rest ih =>
    intro m hpre
    cases hlk : mapLookup m k with
    | none => simp [searchLoop, hlk]
    | some u =>
      have huleaf : u.Leaf = false := by
        refine hpre [k] (by simp) (by simp [isStem]) u ?_
        rw [walk_single]; exact hlk
      have hrec := ih u.Nodes ?_
      · simpa [searchLoop, hlk, huleaf] using hrec
      · intro p hp hst v hv
        cases p with
        | nil => exact absurd rfl hp
        | cons q qs =>
          refine hpre (k :: q :: qs) (by simp) ?_ v ?_
          · rw [isStem_cons_same]; exact hst
          · rw [walk_cons_some m k u q qs hlk]; exact hv

/-- A single insertion changes a leaf status only at its own keys. -/
theorem leaf_after_insert (m : List (String × Node)) (keys p : List String)
    (d : Dep) (dep : Option Dep) (_hkeys : keys ≠ [])
    (h : walkStatus (insertKeys m keys d) p = some (true, dep)) :
    walkStatus m p = some (true, dep) ∨ p = keys := by
  by_cases hpk : p = keys
  · exact Or.inr hpk
  · left
    by_cases hst : isStem p keys = true
    · have hp : p ≠ [] := by
        intro hnil
        subst hnil
        rw [walkStatus_nil] at h
        exact absurd h (by simp)
      rw [walkStatus_insertKeys_stem keys p m d hp hst hpk] at h
      cases hw : walkStatus m p with
      | none => rw [hw] at h; simp at h
      | some st =>
        rw [hw] at h
        simp only [Option.getD_some, Option.some.injEq] at h
        exact congrArg some h
    · rw [walkStatus_insertKeys_out keys p m d (by
        revert hst; cases isStem p keys <;> simp)] at h
      exact h

/-- Any leaf present after a sequence of insertions was already present or
sits at the keys of one of the inserted identifiers. -/
theorem leaf_insertAll :
    ∀ (ds : List Dep) (g : Graph) (p : List String) (dep : Option Dep),
      walkStatus ((insertAll g ds).Nodes) p = some (true, dep) →
      walkStatus g.Nodes p = some (true, dep)
        ∨ p ∈ ds.map (fun d2 => splitKeys d2.Import) := by
  intro ds
  induction ds with
  | nil => intro g p dep h; exact Or.inl h
  | cons d ds ih =>
    intro g p dep h
    have hstep : insertAll g (d :: ds) = insertAll (g.Insert d) ds := rfl
    rw [hstep] at h
    rcases ih (g.Insert d) p dep h with h2 | h2
    · rcases leaf_after_insert g.Nodes (splitKeys d.Import) p d dep
        (splitKeys_ne_nil _) h2 with h3 | h3
      · exact Or.inl h3
      · exact Or.inr (by simp [h3])
    · exact Or.inr (by simp; right; simpa using h2)

/-- A leaf status survives later insertions of other identifiers. -/
theorem status_persists :
    ∀ (ds : List Dep) (g : Graph) (keys : List String) (dep : Option Dep),
      keys ≠ [] →
      (∀ d2 ∈ ds, splitKeys d2.Import ≠ keys) →
      walkStatus g.Nodes keys = some (true, dep) →
      walkStatus ((insertAll g ds).Nodes) keys = some (true, dep) := by
  intro ds
  induction ds with
  | nil => intro g keys dep _ _ h; exact h
  | cons d ds ih =>
    intro g keys dep hne hother h
    have hstep : insertAll g (d :: ds) = insertAll (g.Insert d) ds := rfl
    rw [hstep]
    refine ih (g.Insert d) keys dep hne (fun d2 hd2 => hother d2 (by simp [hd2])) ?_
    have hneq : keys ≠ splitKeys d.Import := fun hh =>
      hother d (by simp) hh.symm
    by_cases hst : isStem keys (splitKeys d.Import) = true
    · have : walkStatus ((g.Insert d).Nodes) keys
          = some ((walkStatus g.Nodes keys).getD (false, none)) :=
        walkStatus_insertKeys_stem (splitKeys d.Import) keys g.Nodes d hne hst hneq
      rw [this, h]
      rfl
    · have : walkStatus ((g.Insert d).Nodes) keys = walkStatus g.Nodes keys :=
        walkStatus_insertKeys_out (splitKeys d.Import) keys g.Nodes d (by
          revert hst; cases isStem keys (splitKeys d.Import) <;> simp)
      rw [this, h]

/-- Main workhorse behind the Search claims: after inserting d between two
insertion batches, with no other inserted identifier a strict initial run of
the identifier of d, and no later insertion at the identifier of d itself,
the search loop on the keys of d extended by any suffix reaches the leaf of
d. -/
theorem search_reaches_inserted (pre post : List Dep) (d : Dep)
    (suf : List String)
    (hpre : ∀ d2 ∈ pre ++ post,
      isStem (splitKeys d2.Import) (splitKeys d.Import) = true →
      splitKeys d2.Import = splitKeys d.Import)
    (hpost : ∀ d2 ∈ post, splitKeys d2.Import ≠ splitKeys d.Import) :
    ∃ n, searchLoop ((insertAll NewGraph (pre ++ d :: post)).Nodes)
        (splitKeys d.Import ++ suf) = some n ∧ n.Dependency = some d := by
  have hI : splitKeys d.Import ≠ [] := splitKeys_ne_nil _
  have hsplit : insertAll NewGraph (pre ++ d :: post)
      = insertAll ((insertAll NewGraph pre).Insert d) post := by
    simp [insertAll, List.foldl_append]
  have h2 : walkStatus ((insertAll NewGraph pre).Insert d).Nodes
      (splitKeys d.Import) = some (true, some d) :=
    walkStatus_insertKeys_self (splitKeys d.Import)
      (insertAll NewGraph pre).Nodes d hI
  have h3 : walkStatus ((insertAll NewGraph (pre ++ d :: post)).Nodes)
      (splitKeys d.Import) = some (true, some d) := by
    rw [hsplit]
    exact status_persists post _ (splitKeys d.Import) (some d) hI hpost h2
  obtain ⟨n, hn, hnl, hnd⟩ : ∃ n,
      walk ((insertAll NewGraph (pre ++ d :: post)).Nodes)
        (splitKeys d.Import) = some n
      ∧ n.Leaf = true ∧ n.Dependency = some d := by
    unfold walkStatus at h3
    cases hw : walk ((insertAll NewGraph (pre ++ d :: post)).Nodes)
        (splitKeys d.Import) with
    | none => rw [hw] at h3; simp at h3
    | some n =>
      rw [hw] at h3
      simp only [Option.map_some', Option.some.injEq, Prod.mk.injEq] at h3
      exact ⟨n, rfl, h3.1, h3.2⟩
  have h4 : ∀ p, p ≠ [] → isStem p (splitKeys d.Import) = true →
      p ≠ splitKeys d.Import →
      ∀ u, walk ((insertAll NewGraph (pre ++ d :: post)).Nodes) p = some u →
        u.Leaf = false := by
    intro p hp hst hpne u hu
    cases hul : u.Leaf with
    | false => rfl
    | true =>
      exfalso
      have hws : walkStatus ((insertAll NewGraph (pre ++ d :: post)).Nodes) p
          = some (true, u.Dependency) := by
        unfold walkStatus
        rw [hu, Option.map_some', hul]
      rcases leaf_insertAll (pre ++ d :: post) NewGraph p u.Dependency hws
        with hold | hmem
      · rw [show NewGraph.Nodes = [] from rfl, walkStatus_nilmap] at hold
        exact absurd hold (by simp)
      · obtain ⟨d2, hd2mem, hd2eq⟩ := List.mem_map.mp hmem
        have hd2pp : d2 = d ∨ d2 ∈ pre ++ post := by
          rcases List.mem_append.mp hd2mem with h | h
          · exact Or.inr (List.mem_append.mpr (Or.inl h))
          · rcases List.mem_cons.mp h with h | h
            · exact Or.inl h
            · exact Or.inr (List.mem_append.mpr (Or.inr h))
        rcases hd2pp with h | h
        · subst h; exact hpne hd2eq.symm
        · have := hpre d2 h (by rw [hd2eq]; exact hst)
          rw [hd2eq] at this
          exact hpne this
  exact ⟨n, searchLoop_first_leaf (splitKeys d.Import) _ n suf hI hn hnl h4, hnd⟩

/-- A concrete record stored at the identifier a. -/
def depA : Dep := { Import := "a" }

/-- A concrete record stored at the identifier a/b. -/
def depAB : Dep := { Import := "a/b" }

/-- A concrete record stored at the identifier a/b/c. -/
def depABC : Dep := { Import := "a/b/c" }

/-- A concrete record stored at the identifier z. -/
def depZ : Dep := { Import := "z" }

/-- A concrete record stored at the identifier q. -/
def depQ : Dep := { Import := "q" }

/-- C1 counterexample: inserting the identifier a/b and then the identifier
a makes Search of a/b answer the dependency of a, not that of a/b, because
the walk stops at the first leaf; so the claim that Search of an inserted
identifier returns its Dep regardless of the other insertions is false. -/
theorem C1_counterexample :
    ((insertAll NewGraph [depAB, depA]).Search "a/b").bind Node.Dependency
      = some depA ∧ depA ≠ depAB := by
  constructor
  · rfl
  · decide

/-- C1 (amended): for every Dep d inserted with identifier I, a later
Search of I returns d, provided no other inserted identifier is a strict
initial run of I and no later insertion reuses I itself. -/
theorem C1_insert_search (pre post : List Dep) (d : Dep)
    (hpre : ∀ d2 ∈ pre ++ post,
      isStem (splitKeys d2.Import) (splitKeys d.Import) = true →
      splitKeys d2.Import = splitKeys d.Import)
    (hpost : ∀ d2 ∈ post, splitKeys d2.Import ≠ splitKeys d.Import) :
    ((insertAll NewGraph (pre ++ d :: post)).Search d.Import).bind
      Node.Dependency = some d := by
  obtain ⟨n, hsearch, hdep⟩ := search_reaches_inserted pre post d [] hpre hpost
  rw [List.append_nil] at hsearch
  unfold Graph.Search
  rw [hsearch]
  exact hdep

/-- C1 witness at a concrete input: d has identifier a/b, inserted after z
and before a/b/c and q. -/
theorem C1_insert_search_witness :
    ((insertAll NewGraph ([depZ] ++ depAB :: [depABC, depQ])).Search
      "a/b").bind Node.Dependency = some depAB :=
  C1_insert_search [depZ] [depABC, depQ] depAB (by decide) (by decide)

/-- C6: a search for a strict descendant of an inserted leaf returns the
dependency of that leaf (the first leaf reached on the walk), and a search
whose keys never meet a leaf, in particular one falling off the trie,
returns nothing rather than an error. -/
theorem C6_search_descendant :
    (∀ (pre post : List Dep) (d : Dep) (q : String) (suf : List String),
      suf ≠ [] →
      splitKeys q = splitKeys d.Import ++ suf →
      (∀ d2 ∈ pre ++ post,
        isStem (splitKeys d2.Import) (splitKeys d.Import) = true →
        splitKeys d2.Import = splitKeys d.Import) →
      (∀ d2 ∈ post, splitKeys d2.Import ≠ splitKeys d.Import) →
      ((insertAll NewGraph (pre ++ d :: post)).Search q).bind Node.Dependency
        = some d)
    ∧ (∀ (g : Graph) (q : String),
      (∀ i, i < (splitKeys q).length →
        ∀ u, walk g.Nodes ((splitKeys q).take (i + 1)) = some u →
          u.Leaf = false) →
      g.Search q = none) := by
  constructor
  · intro pre post d q suf _ hq hpre hpost
    obtain ⟨n, hsearch, hdep⟩ := search_reaches_inserted pre post d suf hpre hpost
    unfold Graph.Search
    rw [hq, hsearch]
    exact hdep
  · intro g q hnoleaf
    unfold Graph.Search
    refine searchLoop_no_leaf (splitKeys q) g.Nodes ?_
    intro p hp hst u hu
    have hptake := isStem_take p (splitKeys q) hst
    have hplen : p.length ≤ (splitKeys q).length := by
      have hlen := congrArg List.length hptake
      rw [List.length_take] at hlen
      omega
    have hppos : 0 < p.length := by
      cases p with
      | nil => exact absurd rfl hp
      | cons a as => simp
    refine hnoleaf (p.length - 1) (by omega) u ?_
    rw [show p.length - 1 + 1 = p.length by omega, ← hptake]
    exact hu

/-- C6 witness at concrete inputs: with a/b inserted, searching a/b/c finds
the dependency of a/b; with only a/b inserted, searching x/y returns
nothing. -/
theorem C6_search_descendant_witness :
    ((insertAll NewGraph ([] ++ depAB :: [])).Search "a/b/c").bind
        Node.Dependency = some depAB
    ∧ (insertAll NewGraph [depAB]).Search "x/y" = none := by
  constructor
  · exact C6_search_descendant.1 [] [] depAB "a/b/c" ["c"] (by decide)
      (by decide) (by decide) (by decide)
  · refine C6_search_descendant.2 (insertAll NewGraph [depAB]) "x/y" ?_
    intro i hi u hu
    have hi2 : i < 2 := hi
    interval_cases i
    · exact Option.noConfusion hu
    · exact Option.noConfusion hu

mutual

/-- The shape of a node: the stored dependency is erased; the key, the leaf
flag and the shapes of the children are kept. Two tries with the same shape
have the same nodes, the same children maps and the same leaf flags. -/
def shapeN : Node → Node
  | .mk k _ leaf ns => .mk k none leaf (shapeM ns)

/-- The shape of a children map, binding by binding. -/
def shapeM : List (String × Node) → List (String × Node)
  | [] => []
  | (s, n) :: rest => (s, shapeN n) :: shapeM rest

end

mutual

/-- The number of leaves in the subtree of a node, itself included. -/
def leafCountN : Node → Nat
  | .mk _ _ leaf ns => (if leaf then 1 else 0) + leafCountM ns

/-- The number of leaves under a children map. -/
def leafCountM : List (String × Node) → Nat
  | [] => 0
  | (_, n) :: rest => leafCountN n + leafCountM rest

end

theorem shapeN_mk (k : String) (d : Option Dep) (l : Bool)
    (ns : List (String × Node)) :
    shapeN (.mk k d l ns) = .mk k none l (shapeM ns) := by
  rw [shapeN]

theorem shapeM_cons (s : String) (n : Node) (rest : List (String × Node)) :
    shapeM ((s, n) :: rest) = (s, shapeN n) :: shapeM rest := by
  rw [shapeM]

theorem leafCountN_mk (k : String) (d : Option Dep) (l : Bool)
    (ns : List (String × Node)) :
    leafCountN (.mk k d l ns) = (if l then 1 else 0) + leafCountM ns := by
  rw [leafCountN]

theorem leafCountM_cons (s : String) (n : Node) (rest : List (String × Node)) :
    leafCountM ((s, n) :: rest) = leafCountN n + leafCountM rest := by
  rw [leafCountM]

/-- Overwriting a present binding with a node of equal shape keeps the shape
of the whole map. -/
theorem shapeM_mapInsert (m : List (String × Node)) (k : String) (v w : Node)
    (hl : mapLookup m k = some w) (hs : shapeN v = shapeN w) :
    shapeM (mapInsert m k v) = shapeM m := by
  induction m with
  | nil => simp [mapLookup] at hl
  | cons p rest ih =>
    obtain ⟨k2, v2⟩ := p
    by_cases h2 : k2 = k
    · subst h2
      have hl2 : v2 = w := by simpa [mapLookup] using hl
      subst hl2
      have hins : mapInsert ((k2, v2) :: rest) k2 v = (k2, v) :: rest := by
        simp [mapInsert]
      rw [hins, shapeM_cons, shapeM_cons, hs]
    · simp only [mapLookup, if_neg h2] at hl
      simp only [mapInsert, if_neg h2]
      rw [shapeM_cons, shapeM_cons, ih hl]

/-- Overwriting a present binding with a node of equal leaf count keeps the
leaf count of the whole map. -/
theorem leafCountM_mapInsert (m : List (String × Node)) (k : String)
    (v w : Node) (hl : mapLookup m k = some w)
    (hc : leafCountN v = leafCountN w) :
    leafCountM (mapInsert m k v) = leafCountM m := by
  induction m with
  | nil => simp [mapLookup] at hl
  | cons p rest ih =>
    obtain ⟨k2, v2⟩ := p
    by_cases h2 : k2 = k
    · subst h2
      have hl2 : v2 = w := by simpa [mapLookup] using hl
      subst hl2
      have hins : mapInsert ((k2, v2) :: rest) k2 v = (k2, v) :: rest := by
        simp [mapInsert]
      rw [hins, leafCountM_cons, leafCountM_cons, hc]
    · simp only [mapLookup, if_neg h2] at hl
      simp only [mapInsert, if_neg h2]
      rw [leafCountM_cons, leafCountM_cons, ih hl]

/-- Inserting at keys whose node is already a leaf keeps both the shape and
the leaf count of the trie. -/
theorem shape_insertKeys :
    ∀ (keys : List String) (m : List (String × Node)) (d : Dep) (n : Node),
      walk m keys = some n → n.Leaf = true →
      shapeM (insertKeys m keys d) = shapeM m
        ∧ leafCountM (insertKeys m keys d) = leafCountM m := by
  intro keys
  induction keys with
  | nil => intro m d n hwalk _; exact absurd hwalk (by simp [walk])
  | cons k rest ih =>
    intro m d n hwalk hleaf
    cases rest with
    | nil =>
      rw [walk_single] at hwalk
      rw [insertKeys_cons, deepInsert_last, lookupOrNew_some m k n hwalk]
      obtain ⟨nk, nd, nl, nns⟩ := n
      simp only [Node.Leaf_mk] at hleaf
      subst hleaf
      constructor
      · exact shapeM_mapInsert m k _ _ hwalk (by simp [shapeN_mk])
      · exact leafCountM_mapInsert m k _ _ hwalk (by simp [leafCountN_mk])
    | cons k2 rest2 =>
      cases hlk : mapLookup m k with
      | none =>
        rw [walk_cons_none m k k2 rest2 hlk] at hwalk
        exact absurd hwalk (by simp)
      | some u =>
        rw [walk_cons_some m k u k2 rest2 hlk] at hwalk
        obtain ⟨hsh, hcnt⟩ := ih u.Nodes d n hwalk hleaf
        rw [insertKeys_cons, deepInsert_cons, lookupOrNew_some m k u hlk]
        obtain ⟨uk, ud, ul, uns⟩ := u
        simp only [Node.Key_mk, Node.Dependency_mk, Node.Leaf_mk,
          Node.Nodes_mk] at hsh hcnt ⊢
        constructor
        · exact shapeM_mapInsert m k _ _ hlk (by simp [shapeN_mk, hsh])
        · exact leafCountM_mapInsert m k _ _ hlk (by simp [leafCountN_mk, hcnt])

/-- C7: re-inserting an identifier whose node is already a leaf replaces
the Dependency stored at that leaf and leaves the trie shape unchanged:
the dependency-erased trie and the total leaf count are the same before and
after, so the node set, every children map and every leaf flag agree. -/
theorem C7_reinsert_keeps_shape (g : Graph) (d : Dep) (n : Node)
    (hwalk : walk g.Nodes (splitKeys d.Import) = some n)
    (hleaf : n.Leaf = true) :
    shapeM ((g.Insert d).Nodes) = shapeM g.Nodes
    ∧ leafCountM ((g.Insert d).Nodes) = leafCountM g.Nodes
    ∧ walkStatus ((g.Insert d).Nodes) (splitKeys d.Import)
        = some (true, some d) := by
  obtain ⟨hsh, hcnt⟩ := shape_insertKeys (splitKeys d.Import) g.Nodes d n
    hwalk hleaf
  exact ⟨hsh, hcnt,
    walkStatus_insertKeys_self (splitKeys d.Import) g.Nodes d
      (splitKeys_ne_nil _)⟩

/-- A record at the identifier a/b differing from depAB in its source. -/
def depAB2 : Dep := { Import := "a/b", Source := some "mirror" }

/-- The concrete trie holding a/b and q used by the C7 witness. -/
def G7 : Graph := insertAll NewGraph [depAB, depQ]

/-- C7 witness at a concrete input: re-inserting a/b with a different record
into a trie holding a/b and q. -/
theorem C7_reinsert_keeps_shape_witness :
    shapeM ((G7.Insert depAB2).Nodes) = shapeM G7.Nodes
    ∧ leafCountM ((G7.Insert depAB2).Nodes) = leafCountM G7.Nodes
    ∧ walkStatus ((G7.Insert depAB2).Nodes) (splitKeys depAB2.Import)
        = some (true, some depAB2) :=
  C7_reinsert_keeps_shape G7 depAB2 (Node.mk "b" (some depAB) true []) rfl rfl

mutual

/-- The node level invariant of C9: the leaf flag of the node equals the
presence of its stored dependency, and the same holds under it. -/
def invN : Node → Bool
  | .mk _ dep leaf ns => (leaf == dep.isSome) && invM ns

/-- The map level invariant of C9, binding by binding. -/
def invM : List (String × Node) → Bool
  | [] => true
  | (_, n) :: rest => invN n && invM rest

end

theorem invN_mk (k : String) (d : Option Dep) (l : Bool)
    (ns : List (String × Node)) :
    invN (.mk k d l ns) = ((l == d.isSome) && invM ns) := by
  rw [invN]

theorem invM_cons (s : String) (n : Node) (rest : List (String × Node)) :
    invM ((s, n) :: rest) = (invN n && invM rest) := by
  rw [invM]

theorem invM_nil : invM [] = true := by
  rw [invM]

theorem invM_lookup (m : List (String × Node)) (k : String) (n : Node)
    (hm : invM m = true) (hl : mapLookup m k = some n) : invN n = true := by
  induction m with
  | nil => simp [mapLookup] at hl
  | cons p rest ih =>
    obtain ⟨k2, v2⟩ := p
    rw [invM_cons, Bool.and_eq_true] at hm
    by_cases h2 : k2 = k
    · simp only [mapLookup, if_pos h2, Option.some.injEq] at hl
      subst hl
      exact hm.1
    · simp only [mapLookup, if_neg h2] at hl
      exact ih hm.2 hl

theorem invM_mapInsert (m : List (String × Node)) (k : String) (v : Node)
    (hm : invM m = true) (hv : invN v = true) :
    invM (mapInsert m k v) = true := by
  induction m with
  | nil =>
    show invM [(k, v)] = true
    rw [invM_cons, hv, invM_nil]
    rfl
  | cons p rest ih =>
    obtain ⟨k2, v2⟩ := p
    rw [invM_cons, Bool.and_eq_true] at hm
    by_cases h2 : k2 = k
    · simp only [mapInsert, if_pos h2]
      rw [invM_cons, hv, hm.2]
      rfl
    · simp only [mapInsert, if_neg h2]
      rw [invM_cons, hm.1, ih hm.2]
      rfl

theorem invN_deepInsert :
    ∀ (keys : List String) (m : List (String × Node)) (d : Dep), keys ≠ [] →
      invM m = true → invN (deepInsert m keys d) = true := by
  intro keys
  induction keys with
  | nil => intro m d h _; exact absurd rfl h
  | cons k rest ih =>
    intro m d _ hm
    cases rest with
    | nil =>
      rw [deepInsert_last, invN_mk]
      cases hl : mapLookup m k with
      | none =>
        rw [lookupOrNew_none m k hl]
        simp only [Node.Nodes_mk]
        rw [invM_nil]
        rfl
      | some n =>
        rw [lookupOrNew_some m k n hl]
        have hn := invM_lookup m k n hm hl
        obtain ⟨nk, nd, nl, nns⟩ := n
        rw [invN_mk, Bool.and_eq_true] at hn
        simp only [Node.Nodes_mk]
        rw [hn.2]
        rfl
    | cons k2 rest2 =>
      cases hl : mapLookup m k with
      | none =>
        rw [deepInsert_cons, lookupOrNew_none m k hl]
        simp only [Node.Key_mk, Node.Dependency_mk, Node.Leaf_mk, Node.Nodes_mk]
        rw [invN_mk, insertKeys_cons,
          invM_mapInsert [] k2 _ invM_nil (ih [] d (by simp) invM_nil)]
        rfl
      | some n =>
        have hn := invM_lookup m k n hm hl
        rw [deepInsert_cons, lookupOrNew_some m k n hl]
        obtain ⟨nk, nd, nl, nns⟩ := n
        rw [invN_mk, Bool.and_eq_true] at hn
        simp only [Node.Key_mk, Node.Dependency_mk, Node.Leaf_mk, Node.Nodes_mk]
        rw [invN_mk, insertKeys_cons,
          invM_mapInsert nns k2 _ hn.2 (ih nns d (by simp) hn.2), hn.1]
        rfl

theorem invM_insertKeys (keys : List String) (m : List (String × Node))
    (d : Dep) (hk : keys ≠ []) (hm : invM m = true) :
    invM (insertKeys m keys d) = true := by
  cases keys with
  | nil => exact absurd rfl hk
  | cons k rest =>
    rw [insertKeys_cons]
    exact invM_mapInsert m k _ hm (invN_deepInsert (k :: rest) m d (by simp) hm)

/-- C9: after any sequence of insertions starting from NewGraph, every node
of the graph satisfies the invariant that its leaf flag is set exactly when
it stores a dependency. -/
theorem C9_leaf_iff_dependency (ds : List Dep) :
    invM ((insertAll NewGraph ds).Nodes) = true := by
  suffices h : ∀ (ds2 : List Dep) (g : Graph), invM g.Nodes = true →
      invM ((insertAll g ds2).Nodes) = true from
    h ds NewGraph invM_nil
  intro ds2
  induction ds2 with
  | nil => intro g hg; exact hg
  | cons d rest ih =>
    intro g hg
    exact ih (g.Insert d)
      (invM_insertKeys (splitKeys d.Import) g.Nodes d (splitKeys_ne_nil _) hg)

/-- Byte strings (file contents, digests) are embedded as lists of naturals. -/
abbrev Bytes := List Nat

/-- One parsed entry of a declaration table, as the external TOML collaborator
hands it to the core: each field is present or absent. The import field is
read in the source through an unchecked string cast, so its absence is a run
time fault there, not a parse error. -/
structure DepEntry where
  importPath : Option String := none
  scm : Option String := none
  source : Option String := none
  branch : Option String := none
  commit : Option String := none
  tag : Option String := none
deriving DecidableEq

/-- A parsed declaration file: the optional self repository identifier and
the two optional dependency tables, each an ordered key to entry map. -/
structure DeclFile where
  repo : Option String := none
  deps : Option (List (String × DepEntry)) := none
  devDeps : Option (List (String × DepEntry)) := none
deriving DecidableEq

/-- The fixed outside world of one run: the parsed root declaration and its
raw bytes, the checksum marker found on disk, which vendor paths exist,
which retrievals fail, the declaration found inside each fetched dependency,
and the digest functions (md5 and hex encoding are kept abstract). -/
structure Env where
  rootDecl : DeclFile
  rootBytes : Bytes
  marker : Option Bytes
  vendorExists : List String
  retrieveFails : List String
  nestedDecl : String → Option DeclFile
  nestedBytes : String → Bytes
  md5 : Bytes → Bytes
  hexE : Bytes → Bytes

/-- One validation failure tied to one Dep field (ProjectError). -/
structure PErr where
  dep : String
  field : String
deriving DecidableEq

/-- The Config of the source: cached raw checksum, repository name (empty
when absent, the Go zero value), the two declaration subtrees as optional
trees (nil when the table is absent), and the declaration file content that
the Path points at. -/
structure Config where
  Checksum : Option Bytes
  Repository : String
  DepsTree : Option (List (String × DepEntry))
  DevDepsTree : Option (List (String × DepEntry))
  declBytes : Bytes

/-- NewConfig from the source: load the declaration file and take the deps,
dev-deps and repo entries when present. -/
def NewConfig (f : DeclFile) (declBytes : Bytes) : Config :=
  { Checksum := none
    Repository := f.repo.getD ""
    DepsTree := f.deps
    DevDepsTree := f.devDeps
    declBytes := declBytes }

/-- The events a run can emit, in order: a graph insertion, the completion
of whole set validation, a batch of reported errors, a retrieval, a pin
checkout, and the writing of the checksum marker. -/
inductive Ev where
  | insert (imp : String)
  | validate
  | reported (count : Nat)
  | retrieve (imp : String)
  | checkout (imp : String) (kind : String) (spec : String)
  | wroteChecksum
deriving DecidableEq

/-- How a run can stop early: a process exit with a code, a run time fault
(nil dereference or failed cast), or exhaustion of the recursion fuel of the
model. -/
inductive Halt where
  | exited (code : Nat)
  | crashed
  | fuelOut
deriving DecidableEq

/-- The mutable state of one run: the checksum marker file, the trace of
emitted events, and the shared import graph. -/
structure St where
  marker : Option Bytes
  trace : List Ev
  graph : Graph

/-- checksum from the source: on the first call read the declaration file,
hash it and cache the raw digest; every call returns the hex encoding of
the cached digest. -/
def Config.checksum (env : Env) (c : Config) : Config × Bytes :=
  match c.Checksum with
  | some b => (c, env.hexE b)
  | none =>
    let b := env.md5 c.declBytes
    ({ c with Checksum := some b }, env.hexE b)

/-- modifiedChecksum from the source: read the marker file; report modified
when the file does not exist or its bytes differ from the current checksum
(a failed read leaves the bytes empty). -/
def Config.modifiedChecksum (env : Env) (c : Config) (marker : Option Bytes) :
    Config × Bool :=
  let cs := Config.checksum env c
  (cs.1, (marker.isNone || (marker.getD [] != cs.2)))

/-- WriteChecksum from the source: write the current checksum into the
marker file. -/
def Config.WriteChecksum (env : Env) (c : Config) (s : St) : Config × St :=
  let cs := Config.checksum env c
  (cs.1, { s with marker := some cs.2, trace := s.trace ++ [Ev.wroteChecksum] })

/-- InitRepo from the source: when the project declares its own repository,
link the vendor path (a filesystem effect outside this model) and insert a
synthetic self dependency into the import graph. -/
def Config.InitRepo (c : Config) (s : St) : St :=
  if c.Repository ≠ "" then
    { s with graph := s.graph.Insert { Import := c.Repository },
             trace := s.trace ++ [Ev.insert c.Repository] }
  else s

/-- Modelled from the spec: dep.go is absent from the sources.
NewDependency builds a dependency from its import identifier. -/
def NewDependency (imp : String) : Dep := { Import := imp }

/-- Character level test that the second string begins with the first. -/
def charStem : List Char → List Char → Bool
  | [], _ => true
  | _ :: _, [] => false
  | a :: as, b :: bs => a == b && charStem as bs

/-- Modelled from the spec: dep.go is absent. The SCM kind is inferred from
the identifier when not declared; the model infers git for github hosted
identifiers and nothing otherwise. -/
def inferScm (imp : String) : Option String :=
  if charStem "github.com/".data imp.data then some "git" else none

/-- Modelled from the spec: dep.go is absent. setScm takes the declared SCM
kind or falls back to inference. -/
def setScm (d : Dep) (entry : DepEntry) : Dep :=
  match entry.scm with
  | some s => { d with Scm := some s }
  | none => { d with Scm := inferScm d.Import }

/-- Modelled from the spec: dep.go is absent. setSource takes the declared
source locator. -/
def setSource (d : Dep) (entry : DepEntry) : Dep :=
  { d with Source := entry.source }

/-- Modelled from the spec: dep.go is absent. setCheckout installs one
checkout spec when the field is declared; the last applied field wins. -/
def setCheckout (d : Dep) (v : Option String) (flag : String) : Dep :=
  match v with
  | none => d
  | some sp => { d with CheckoutType := flag, CheckoutSpec := sp }

/-- The per entry construction of addDepsTree in the source: NewDependency
on the import field, then setScm, setSource and the three setCheckout calls
for branch, commit and tag, in that order. -/
def buildDep (imp : String) (entry : DepEntry) : Dep :=
  setCheckout
    (setCheckout
      (setCheckout (setSource (setScm (NewDependency imp) entry) entry)
        entry.branch "branch")
      entry.commit "commit")
    entry.tag "tag"

/-- Modelled from the spec: dep.go is absent. Validate reports one field
level error for an absent identifier or an unresolved SCM kind; the self
reference check of the spec needs the project facts and is part of the set
level validation. -/
def depValidate (d : Dep) : Option PErr :=
  if d.Import = "" then some { dep := d.Import, field := "import" }
  else
    match d.Scm with
    | none => some { dep := d.Import, field := "scm" }
    | some _ => none

/-- Index aligned sequences of declaration key, raw import and Dep; the
shared import graph lives in the run state. -/
structure Dependencies where
  Keys : List String
  Imports : List String
  DepList : List Dep

/-- Duplicate identifier errors: one error for every import already seen. -/
def dupErrorsAux : List String → List String → List PErr
  | _, [] => []
  | seen, i :: rest =>
    (if seen.contains i then [{ dep := i, field := "duplicate" }] else [])
      ++ dupErrorsAux (seen ++ [i]) rest

/-- Modelled from the spec: dep.go is absent. The whole set validation runs
Validate over every member and adds the whole set checks (duplicate
identifiers across the tables), returning the full aggregated list; the
project facts argument of the source plays no part in this model. -/
def Dependencies.Validate (deps : Dependencies) : List PErr :=
  deps.DepList.filterMap depValidate ++ dupErrorsAux [] deps.Imports

/-- The loop of addDepsTree in the source, over the ordered entries of one
declaration table. For each entry: read the import field (an absent field
makes the string cast of the source fault), build the Dep, validate it and
return the first error (the source is fail fast here), set the fetch flag
(the spec gate: refetch when the checksum changed or the vendor path is
absent), record the entry and insert the Dep into the shared graph. -/
def addDepsTree (env : Env) (modified : Bool) :
    List (String × DepEntry) → List (String × Dep) → St →
      St × Except Halt (Except PErr (List (String × Dep)))
  | [], acc, s => (s, .ok (.ok acc))
  | (k, entry) :: rest, acc, s =>
    match entry.importPath with
    | none => (s, .error .crashed)
    | some imp =>
      let d := buildDep imp entry
      match depValidate d with
      | some e => (s, .ok (.error e))
      | none =>
        let d2 := { d with fetch := modified || !(env.vendorExists.contains imp) }
        let s2 := { s with graph := s.graph.Insert d2,
                           trace := s.trace ++ [Ev.insert imp] }
        addDepsTree env modified rest (acc ++ [(k, d2)]) s2

/-- The entry count of an optional declaration table; the source guards the
nil tree here. -/
def keysLen : Option (List (String × DepEntry)) → Nat
  | none => 0
  | some t => t.length

/-- The Dependencies value assembled from the recorded entries. -/
def mkDependencies (acc : List (String × Dep)) : Dependencies :=
  { Keys := acc.map Prod.fst
    Imports := acc.map (fun p => p.2.Import)
    DepList := acc.map Prod.snd }

/-- LoadDependencyModel from the source: count the declared entries and
return nothing when there are none; otherwise compute the checksum gate once
and load the main then the dev table. Between the two calls the source reads
the length of the keys of the main tree without a nil guard, so a
declaration with only a dev table faults at run time. -/
def LoadDependencyModel (env : Env) (c : Config) (s : St) :
    St × Except Halt (Config × Except PErr (Option Dependencies)) :=
  if keysLen c.DepsTree + keysLen c.DevDepsTree = 0 then (s, .ok (c, .ok none))
  else
    let cm := Config.modifiedChecksum env c s.marker
    match addDepsTree env cm.2 (c.DepsTree.getD []) [] s with
    | (s1, .error h) => (s1, .error h)
    | (s1, .ok (.error e)) => (s1, .ok (cm.1, .error e))
    | (s1, .ok (.ok acc1)) =>
      match c.DepsTree with
      | none => (s1, .error .crashed)
      | some _ =>
        match addDepsTree env cm.2 (c.DevDepsTree.getD []) acc1 s1 with
        | (s2, .error h) => (s2, .error h)
        | (s2, .ok (.error e)) => (s2, .ok (cm.1, .error e))
        | (s2, .ok (.ok acc2)) =>
          (s2, .ok (cm.1, .ok (some (mkDependencies acc2))))

/-- Modelled from the spec: dep.go is absent. Get performs the retrieval of
the fetch step when the gate computed by Fetch is set: the retrieval
operation is invoked (and a failing retrieval is immediately fatal), and is
skipped otherwise. -/
def Dep.Get (env : Env) (d : Dep) (s : St) : St × Except Halt Unit :=
  if d.fetch then
    let s2 := { s with trace := s.trace ++ [Ev.retrieve d.Import] }
    if env.retrieveFails.contains d.Import then (s2, .error (.exited 1))
    else (s2, .ok ())
  else (s, .ok ())

/-- Modelled from the spec: dep.go is absent. LoadTransitiveDeps parses the
declaration owned by the fetched dependency and loads its model on the same
shared graph, returning nothing when the dependency owns no declaration or
the declaration has no dependencies. -/
def Dep.LoadTransitiveDeps (env : Env) (d : Dep) (s : St) :
    St × Except Halt (Except PErr (Option Dependencies)) :=
  match env.nestedDecl d.Import with
  | none => (s, .ok (.ok none))
  | some f =>
    match LoadDependencyModel env (NewConfig f (env.nestedBytes d.Import)) s with
    | (s2, .error h) => (s2, .error h)
    | (s2, .ok (_, r)) => (s2, .ok r)

/-- Modelled from the spec: dep.go is absent. VisitDeps applies the caller
supplied routine to every Dep in declaration order, synchronously, stopping
at the first early exit. -/
def visitList (routine : Dep → St → St × Except Halt Unit) :
    List Dep → St → St × Except Halt Unit
  | [], s => (s, .ok ())
  | dep :: rest, s =>
    match routine dep s with
    | (s1, .error h) => (s1, .error h)
    | (s1, .ok ()) => visitList routine rest s1

/-- The routine the source hands to VisitDeps in loadTransitiveDependencies:
Get, then the pin checkout when a checkout spec is declared, then, when the
dep was fetched, load its transitive dependencies and, when a set came back,
recurse into it (the recursion is the closed over enclosing function, passed
here as an argument). -/
def depRoutine (env : Env)
    (recurse : Dependencies → St → St × Except Halt Unit)
    (dep : Dep) (s : St) : St × Except Halt Unit :=
  match Dep.Get env dep s with
  | (s1, .error h) => (s1, .error h)
  | (s1, .ok ()) =>
    let s2 := if dep.CheckoutType ≠ "" then
        { s1 with trace := s1.trace ++
            [Ev.checkout dep.Import dep.CheckoutType dep.CheckoutSpec] }
      else s1
    if dep.fetch then
      match Dep.LoadTransitiveDeps env dep s2 with
      | (s3, .error h) => (s3, .error h)
      | (s3, .ok (.error _)) => (s3, .error (.exited 1))
      | (s3, .ok (.ok none)) => (s3, .ok ())
      | (s3, .ok (.ok (some tdeps))) => recurse tdeps s3
    else (s2, .ok ())

/-- loadTransitiveDependencies from the source: visit every Dep of the set
with the fetch, checkout and recurse routine. The fuel bounds the recursion
depth of the model (the source recursion is unbounded and has no cycle
guard); a run that would nest deeper than the fuel stops with fuelOut. -/
def loadTransitiveDependencies (env : Env) :
    Nat → Dependencies → St → St × Except Halt Unit
  | 0, _, s => (s, .error .fuelOut)
  | fuel + 1, dependencies, s =>
    visitList (depRoutine env (loadTransitiveDependencies env fuel))
      dependencies.DepList s

/-- failWith from the source: print every error of the batch and exit with
the error count; do nothing when there are none. -/
def failWith (errors : List PErr) (s : St) : St × Except Halt Unit :=
  if errors.length > 0 then
    ({ s with trace := s.trace ++ [Ev.reported errors.length] },
      .error (.exited errors.length))
  else (s, .ok ())

/-- loadConfiguration from the source: fresh import graph, NewConfig,
InitRepo, then LoadDependencyModel; a model error is fatal with exit code
one. -/
def loadConfiguration (env : Env) (s : St) :
    St × Except Halt (Config × Option Dependencies) :=
  let s0 := { s with graph := NewGraph }
  let c := NewConfig env.rootDecl env.rootBytes
  let s1 := c.InitRepo s0
  match LoadDependencyModel env c s1 with
  | (s2, .error h) => (s2, .error h)
  | (s2, .ok (_, .error _)) => (s2, .error (.exited 1))
  | (s2, .ok (c2, .ok depsOpt)) => (s2, .ok (c2, depsOpt))

/-- loadDependencies from the source: load the configuration; when a
dependency set came back, validate the whole set (the validate event marks
the completion of that validation), stop with the aggregated batch when it
is not empty, load the transitive dependencies, and only then write the
checksum marker. -/
def loadDependencies (env : Env) (fuel : Nat) (s : St) :
    St × Except Halt (Config × Option Dependencies) :=
  match loadConfiguration env s with
  | (s1, .error h) => (s1, .error h)
  | (s1, .ok (c, none)) => (s1, .ok (c, none))
  | (s1, .ok (c, some deps)) =>
    let errors := deps.Validate
    let s2 := { s1 with trace := s1.trace ++ [Ev.validate] }
    match failWith errors s2 with
    | (s3, .error h) => (s3, .error h)
    | (s3, .ok ()) =>
      match loadTransitiveDependencies env fuel deps s3 with
      | (s4, .error h) => (s4, .error h)
      | (s4, .ok ()) =>
        let w := Config.WriteChecksum env c s4
        (w.2, .ok (w.1, some deps))

/-- The starting state of a run: the marker found on disk, no events, an
empty graph. -/
def initSt (env : Env) : St :=
  { marker := env.marker, trace := [], graph := NewGraph }

/-- The installing entry point of main in the source: load the dependencies
and fail with exit code one when no dependency info came back. -/
def runMain (env : Env) (fuel : Nat) :
    St × Except Halt (Config × Dependencies) :=
  match loadDependencies env fuel (initSt env) with
  | (s, .error h) => (s, .error h)
  | (s, .ok (_, none)) => (s, .error (.exited 1))
  | (s, .ok (c, some deps)) => (s, .ok (c, deps))

/-- Recognizer of retrieval events. -/
def isRetrieve : Ev → Bool
  | .retrieve _ => true
  | _ => false

/-- Scan of a trace: true when no retrieval event appears before the first
validate event (or at all, when validation never completes). -/
def noRetrieveBeforeValidate : List Ev → Bool
  | [] => true
  | Ev.validate :: _ => true
  | e :: rest => !(isRetrieve e) && noRetrieveBeforeValidate rest

/-- Recognizer of insert events. -/
def isInsert : Ev → Bool
  | .insert _ => true
  | _ => false

/-- Evolution of the run state where the marker is untouched and the trace
only grows. -/
def anyStep (s s2 : St) : Prop :=
  s2.marker = s.marker ∧ ∃ t, s2.trace = s.trace ++ t

/-- Evolution of the run state during the loading phase: the marker is
untouched and only insert events are emitted. -/
def loadStep (s s2 : St) : Prop :=
  s2.marker = s.marker ∧ ∃ t, s2.trace = s.trace ++ t ∧ t.all isInsert = true

theorem anyStep_rfl (s : St) : anyStep s s := ⟨rfl, [], by simp⟩

theorem anyStep_trans {s1 s2 s3 : St} (h1 : anyStep s1 s2)
    (h2 : anyStep s2 s3) : anyStep s1 s3 := by
  obtain ⟨hm1, t1, ht1⟩ := h1
  obtain ⟨hm2, t2, ht2⟩ := h2
  exact ⟨hm2.trans hm1, t1 ++ t2, by rw [ht2, ht1, List.append_assoc]⟩

theorem loadStep_rfl (s : St) : loadStep s s := ⟨rfl, [], by simp, by simp⟩

theorem loadStep_trans {s1 s2 s3 : St} (h1 : loadStep s1 s2)
    (h2 : loadStep s2 s3) : loadStep s1 s3 := by
  obtain ⟨hm1, t1, ht1, ha1⟩ := h1
  obtain ⟨hm2, t2, ht2, ha2⟩ := h2
  refine ⟨hm2.trans hm1, t1 ++ t2, by rw [ht2, ht1, List.append_assoc], ?_⟩
  simp only [List.all_append, ha1, ha2, Bool.and_self]

theorem loadStep_anyStep {s1 s2 : St} (h : loadStep s1 s2) : anyStep s1 s2 :=
  ⟨h.1, h.2.choose, h.2.choose_spec.1⟩

theorem addDepsTree_loadStep (env : Env) (modified : Bool) :
    ∀ (l : List (String × DepEntry)) (acc : List (String × Dep)) (s : St),
      loadStep s (addDepsTree env modified l acc s).1 := by
  intro l
  induction l with
  | nil => intro acc s; exact loadStep_rfl s
  | cons p rest ih =>
    intro acc s
    obtain ⟨k, entry⟩ := p
    rw [addDepsTree]
    cases entry.importPath with
    | none => exact loadStep_rfl s
    | some imp =>
      simp only []
      cases depValidate (buildDep imp entry) with
      | some e => exact loadStep_rfl s
      | none =>
        have hstep : loadStep s { s with
            graph := s.graph.Insert { buildDep imp entry with
              fetch := modified || !(env.vendorExists.contains imp) },
            trace := s.trace ++ [Ev.insert imp] } :=
          ⟨rfl, [Ev.insert imp], rfl, by simp [isInsert]⟩
        exact loadStep_trans hstep (ih _ _)

theorem LoadDependencyModel_loadStep (env : Env) (c : Config) (s : St) :
    loadStep s (LoadDependencyModel env c s).1 := by
  simp only [LoadDependencyModel]
  split
  · exact loadStep_rfl s
  · rcases h1 : addDepsTree env (Config.modifiedChecksum env c s.marker).2
        (c.DepsTree.getD []) [] s with ⟨s1, r1⟩
    have hs1 : loadStep s s1 := by
      have h := addDepsTree_loadStep env (Config.modifiedChecksum env c s.marker).2
        (c.DepsTree.getD []) [] s
      rw [h1] at h
      exact h
    cases r1 with
    | error h => exact hs1
    | ok r1b =>
      cases r1b with
      | error e => exact hs1
      | ok acc1 =>
        dsimp only
        cases hdt : c.DepsTree with
        | none => exact hs1
        | some tmain =>
          dsimp only
          rcases h2 : addDepsTree env (Config.modifiedChecksum env c s.marker).2
              (c.DevDepsTree.getD []) acc1 s1 with ⟨s2, r2⟩
          have hs2 : loadStep s1 s2 := by
            have h := addDepsTree_loadStep env
              (Config.modifiedChecksum env c s.marker).2
              (c.DevDepsTree.getD []) acc1 s1
            rw [h2] at h
            exact h
          cases r2 with
          | error h => exact loadStep_trans hs1 hs2
          | ok r2b =>
            cases r2b with
            | error e => exact loadStep_trans hs1 hs2
            | ok acc2 => exact loadStep_trans hs1 hs2

theorem DepGet_anyStep (env : Env) (d : Dep) (s : St) :
    anyStep s (Dep.Get env d s).1 := by
  rw [Dep.Get]
  split
  · split
    · exact ⟨rfl, [Ev.retrieve d.Import], rfl⟩
    · exact ⟨rfl, [Ev.retrieve d.Import], rfl⟩
  · exact anyStep_rfl s

theorem LoadTransitiveDeps_anyStep (env : Env) (d : Dep) (s : St) :
    anyStep s (Dep.LoadTransitiveDeps env d s).1 := by
  rw [Dep.LoadTransitiveDeps]
  cases hnd : env.nestedDecl d.Import with
  | none => exact anyStep_rfl s
  | some f =>
    dsimp only
    rcases h : LoadDependencyModel env (NewConfig f (env.nestedBytes d.Import)) s
      with ⟨s2, r⟩
    have hs2 : loadStep s s2 := by
      have h2 := LoadDependencyModel_loadStep env
        (NewConfig f (env.nestedBytes d.Import)) s
      rw [h] at h2
      exact h2
    cases r with
    | error h2 => exact loadStep_anyStep hs2
    | ok p =>
      obtain ⟨c2, r2⟩ := p
      exact loadStep_anyStep hs2

theorem visitList_anyStep (routine : Dep → St → St × Except Halt Unit)
    (hr : ∀ d s, anyStep s (routine d s).1) :
    ∀ (l : List Dep) (s : St), anyStep s (visitList routine l s).1 := by
  intro l
  induction l with
  | nil => intro s; exact anyStep_rfl s
  | cons dep rest ih =>
    intro s
    rw [visitList]
    rcases hg : routine dep s with ⟨s1, rg⟩
    have h1 : anyStep s s1 := by
      have h := hr dep s
      rw [hg] at h
      exact h
    cases rg with
    | error h => exact h1
    | ok u =>
      cases u
      exact anyStep_trans h1 (ih s1)

theorem depRoutine_anyStep (env : Env)
    (recurse : Dependencies → St → St × Except Halt Unit)
    (hrec : ∀ tdeps s, anyStep s (recurse tdeps s).1) :
    ∀ (dep : Dep) (s : St), anyStep s (depRoutine env recurse dep s).1 := by
  intro dep s
  rw [depRoutine]
  rcases hg : Dep.Get env dep s with ⟨s1, rg⟩
  have h1 : anyStep s s1 := by
    have h := DepGet_anyStep env dep s
    rw [hg] at h
    exact h
  cases rg with
  | error h => exact h1
  | ok u =>
    cases u
    dsimp only
    set s2 := if dep.CheckoutType ≠ "" then
        { s1 with trace := s1.trace ++
            [Ev.checkout dep.Import dep.CheckoutType dep.CheckoutSpec] }
      else s1 with hs2def
    have h2 : anyStep s1 s2 := by
      rw [hs2def]
      split
      · exact ⟨rfl, _, rfl⟩
      · exact anyStep_rfl s1
    have h12 : anyStep s s2 := anyStep_trans h1 h2
    by_cases hf : dep.fetch = true
    · rw [if_pos hf]
      rcases hl : Dep.LoadTransitiveDeps env dep s2 with ⟨s3, rl⟩
      have h3 : anyStep s2 s3 := by
        have h := LoadTransitiveDeps_anyStep env dep s2
        rw [hl] at h
        exact h
      have h13 : anyStep s s3 := anyStep_trans h12 h3
      cases rl with
      | error h => exact h13
      | ok rl2 =>
        cases rl2 with
        | error e => exact h13
        | ok ropt =>
          cases ropt with
          | none => exact h13
          | some tdeps =>
            have h4 := hrec tdeps s3
            exact anyStep_trans h13 h4
    · rw [if_neg hf]
      exact h12

theorem loadTransitiveDependencies_anyStep (env : Env) :
    ∀ (fuel : Nat) (deps : Dependencies) (s : St),
      anyStep s (loadTransitiveDependencies env fuel deps s).1 := by
  intro fuel
  induction fuel with
  | zero => intro deps s; exact anyStep_rfl s
  | succ f ih =>
    intro deps s
    exact visitList_anyStep (depRoutine env (loadTransitiveDependencies env f))
      (depRoutine_anyStep env (loadTransitiveDependencies env f) ih)
      deps.DepList s

theorem InitRepo_loadStep (c : Config) (s : St) :
    loadStep s (c.InitRepo s) := by
  rw [Config.InitRepo]
  split
  · exact ⟨rfl, [Ev.insert c.Repository], rfl, by simp [isInsert]⟩
  · exact loadStep_rfl s

theorem loadConfiguration_loadStep (env : Env) (s : St) :
    (loadConfiguration env s).1.marker = s.marker
    ∧ ∃ t, (loadConfiguration env s).1.trace = s.trace ++ t
        ∧ t.all isInsert = true := by
  rw [loadConfiguration]
  have hinit : loadStep s ((NewConfig env.rootDecl env.rootBytes).InitRepo
      { s with graph := NewGraph }) := by
    have h0 : loadStep s { s with graph := NewGraph } := ⟨rfl, [], by simp, by simp⟩
    exact loadStep_trans h0 (InitRepo_loadStep _ _)
  rcases h : LoadDependencyModel env (NewConfig env.rootDecl env.rootBytes)
      ((NewConfig env.rootDecl env.rootBytes).InitRepo { s with graph := NewGraph })
    with ⟨s2, r⟩
  have hs2 : loadStep s s2 := by
    refine loadStep_trans hinit ?_
    have := LoadDependencyModel_loadStep env (NewConfig env.rootDecl env.rootBytes)
      ((NewConfig env.rootDecl env.rootBytes).InitRepo { s with graph := NewGraph })
    rw [h] at this
    exact this
  cases r with
  | error h2 => exact hs2
  | ok p =>
    obtain ⟨c2, r2⟩ := p
    cases r2 with
    | error e => exact hs2
    | ok depsOpt => exact hs2

theorem failWith_marker (es : List PErr) (s : St) :
    (failWith es s).1.marker = s.marker := by
  rw [failWith]
  split
  · rfl
  · rfl

/-- Every stopping outcome of loadDependencies leaves the marker what it
was; only the final WriteChecksum of a fully successful pass touches it. -/
theorem loadDependencies_stop_marker (env : Env) (fuel : Nat) (s : St) :
    (∀ h, (loadDependencies env fuel s).2 = .error h →
      (loadDependencies env fuel s).1.marker = s.marker)
    ∧ (∀ c, (loadDependencies env fuel s).2 = .ok (c, none) →
      (loadDependencies env fuel s).1.marker = s.marker) := by
  rw [loadDependencies]
  rcases hc : loadConfiguration env s with ⟨s1, rc⟩
  have hm1 : s1.marker = s.marker := by
    have h := (loadConfiguration_loadStep env s).1
    rw [hc] at h
    exact h
  cases rc with
  | error h2 => exact ⟨fun h _ => hm1, fun c hh => by simp at hh⟩
  | ok p =>
    obtain ⟨c, depsOpt⟩ := p
    cases depsOpt with
    | none => exact ⟨fun h hh => by simp at hh, fun c2 _ => hm1⟩
    | some deps =>
      dsimp only
      rcases hfw : failWith deps.Validate
          { s1 with trace := s1.trace ++ [Ev.validate] } with ⟨s3, rf⟩
      have hm3 : s3.marker = s.marker := by
        have h := failWith_marker deps.Validate
          { s1 with trace := s1.trace ++ [Ev.validate] }
        rw [hfw] at h
        exact h.trans hm1
      cases rf with
      | error h2 => exact ⟨fun h _ => hm3, fun c2 hh => by simp at hh⟩
      | ok u =>
        cases u
        dsimp only
        rcases hltd : loadTransitiveDependencies env fuel deps s3 with ⟨s4, rt⟩
        have hm4 : s4.marker = s.marker := by
          have h := (loadTransitiveDependencies_anyStep env fuel deps s3).1
          rw [hltd] at h
          exact h.trans hm3
        cases rt with
        | error h2 => exact ⟨fun h _ => hm4, fun c2 hh => by simp at hh⟩
        | ok u2 =>
          cases u2
          constructor
          · intro h hh
            exact absurd hh (by simp)
          · intro c2 hh
            exact absurd hh (by simp)

/-- C4: the checksum marker is written only after a fully successful run:
whenever the run stops early, with a process exit, a run time fault or
exhausted model fuel, the marker after the run equals the marker before
the run. -/
theorem C4_marker_unchanged_on_failure (env : Env) (fuel : Nat) (h : Halt)
    (hfail : (runMain env fuel).2 = .error h) :
    (runMain env fuel).1.marker = env.marker := by
  unfold runMain at hfail ⊢
  rcases hld : loadDependencies env fuel (initSt env) with ⟨s, r⟩
  have hlem := loadDependencies_stop_marker env fuel (initSt env)
  rw [hld] at hlem
  cases r with
  | error h2 =>
    simp only [hld]
    exact hlem.1 h2 rfl
  | ok p =>
    obtain ⟨c, depsOpt⟩ := p
    cases depsOpt with
    | none =>
      simp only [hld]
      exact hlem.2 c rfl
    | some deps =>
      rw [hld] at hfail
      simp at hfail

/-- A declaration entry hosted on github whose SCM kind is inferred. -/
def entryGX : DepEntry := { importPath := some "github.com/x/y" }

/-- A second github hosted entry, used as a nested dependency. -/
def entryBB : DepEntry := { importPath := some "github.com/b/b" }

/-- An entry whose SCM kind can not be resolved (not github, no scm). -/
def entryX : DepEntry := { importPath := some "x" }

/-- A second unresolvable entry. -/
def entryY : DepEntry := { importPath := some "y" }

/-- A world with one valid declared dependency, no marker on disk, an empty
vendor tree, no failures and identity digest functions. -/
def envOne : Env :=
  { rootDecl := { deps := some [("a", entryGX)] }
    rootBytes := [7]
    marker := none
    vendorExists := []
    retrieveFails := []
    nestedDecl := fun _ => none
    nestedBytes := fun _ => []
    md5 := fun b => b
    hexE := fun b => b }

/-- The world of the C10 input: only a dev-deps table is declared. -/
def envDevOnly : Env :=
  { envOne with rootDecl := { devDeps := some [("w", entryGX)] } }

/-- A world declaring three dependencies of which the last two are invalid. -/
def envTwoBad : Env :=
  { envOne with rootDecl :=
      { deps := some [("a", entryGX), ("b", entryX), ("c", entryY)] } }

/-- A world declaring the same import three times (two duplicates). -/
def envDup3 : Env :=
  { envOne with rootDecl :=
      { deps := some [("a", entryGX), ("b", entryGX), ("c", entryGX)] } }

/-- The nested declarations of the envNested world: the fetched root
dependency owns a declaration with one dependency of its own. -/
def nestedOfNested : String → Option DeclFile := fun i =>
  if i = "github.com/x/y" then some { deps := some [("b", entryBB)] } else none

/-- A world where the declared dependency owns a nested declaration with
one dependency of its own. -/
def envNested : Env := { envOne with nestedDecl := nestedOfNested }

/-- A world with a stale marker whose single retrieval fails. -/
def envRetFail : Env :=
  { envOne with marker := some [9], retrieveFails := ["github.com/x/y"] }

/-- C4 witness: a run whose single retrieval fails mid traversal keeps the
marker bytes found on disk before the run. -/
theorem C4_marker_unchanged_on_failure_witness :
    (runMain envRetFail 3).1.marker = envRetFail.marker :=
  C4_marker_unchanged_on_failure envRetFail 3 (.exited 1) rfl

/-- C10: a declaration carrying only a dev-deps table faults instead of
loading those dependencies: LoadDependencyModel reads the key count of the
absent main tree without a nil guard, a nil dereference; the whole run
stops with that fault. -/
theorem C10_dev_only_crashes :
    (LoadDependencyModel envDevOnly
        (NewConfig envDevOnly.rootDecl envDevOnly.rootBytes)
        (initSt envDevOnly)).2 = .error .crashed
    ∧ (runMain envDevOnly 3).2 = .error .crashed :=
  ⟨rfl, rfl⟩

theorem nrbv_all_inserts :
    ∀ (t : List Ev), t.all isInsert = true →
      noRetrieveBeforeValidate t = true := by
  intro t
  induction t with
  | nil => intro _; rfl
  | cons e rest ih =>
    intro h
    rw [List.all_cons, Bool.and_eq_true] at h
    cases e with
    | insert i =>
      show (!(isRetrieve (Ev.insert i)) && noRetrieveBeforeValidate rest) = true
      simp only [isRetrieve, Bool.not_false, Bool.true_and]
      exact ih h.2
    | validate => rfl
    | reported n => simp [isInsert] at h
    | retrieve i => simp [isInsert] at h
    | checkout i k sp => simp [isInsert] at h
    | wroteChecksum => simp [isInsert] at h

theorem nrbv_append_validate :
    ∀ (t rest : List Ev), t.all isInsert = true →
      noRetrieveBeforeValidate (t ++ Ev.validate :: rest) = true := by
  intro t
  induction t with
  | nil => intro rest _; rfl
  | cons e t2 ih =>
    intro rest h
    rw [List.all_cons, Bool.and_eq_true] at h
    cases e with
    | insert i =>
      rw [List.cons_append]
      show (!(isRetrieve (Ev.insert i))
        && noRetrieveBeforeValidate (t2 ++ Ev.validate :: rest)) = true
      simp only [isRetrieve, Bool.not_false, Bool.true_and]
      exact ih rest h.2
    | validate => simp [isInsert] at h
    | reported n => simp [isInsert] at h
    | retrieve i => simp [isInsert] at h
    | checkout i k sp => simp [isInsert] at h
    | wroteChecksum => simp [isInsert] at h

theorem all_inserts_no_retrieve (t : List Ev) (h : t.all isInsert = true) :
    t.all (fun e => !(isRetrieve e)) = true := by
  rw [List.all_eq_true] at h ⊢
  intro e he
  have h2 := h e he
  cases e <;> simp_all [isInsert, isRetrieve]

theorem failWith_anyStep (es : List PErr) (s : St) :
    anyStep s (failWith es s).1 := by
  rw [failWith]
  split
  · exact ⟨rfl, _, rfl⟩
  · exact anyStep_rfl s

/-- The trace of every loadDependencies outcome that got past configuration
loading splits as the loading trace, then the validate event, then the rest;
before the validate event only insert events appear. -/
theorem loadDependencies_nrbv (env : Env) (fuel : Nat) (s : St)
    (hs : s.trace.all isInsert = true) :
    noRetrieveBeforeValidate (loadDependencies env fuel s).1.trace = true := by
  rw [loadDependencies]
  rcases hc : loadConfiguration env s with ⟨s1, rc⟩
  have h1 : s1.trace.all isInsert = true := by
    have h := (loadConfiguration_loadStep env s).2
    rw [hc] at h
    obtain ⟨t, ht, hall⟩ := h
    rw [ht, List.all_append, hs, hall]
    rfl
  cases rc with
  | error h2 => exact nrbv_all_inserts s1.trace h1
  | ok p =>
    obtain ⟨c, depsOpt⟩ := p
    cases depsOpt with
    | none => exact nrbv_all_inserts s1.trace h1
    | some deps =>
      dsimp only
      rcases hfw : failWith deps.Validate
          { s1 with trace := s1.trace ++ [Ev.validate] } with ⟨s3, rf⟩
      have h3 : ∃ t3, s3.trace = s1.trace ++ Ev.validate :: t3 := by
        have h := failWith_anyStep deps.Validate
          { s1 with trace := s1.trace ++ [Ev.validate] }
        rw [hfw] at h
        obtain ⟨_, t, ht⟩ := h
        exact ⟨t, by simpa using ht⟩
      cases rf with
      | error h2 =>
        obtain ⟨t3, ht3⟩ := h3
        rw [ht3]
        exact nrbv_append_validate s1.trace t3 h1
      | ok u =>
        cases u
        dsimp only
        rcases hltd : loadTransitiveDependencies env fuel deps s3 with ⟨s4, rt⟩
        have h4 : ∃ t4, s4.trace = s1.trace ++ Ev.validate :: t4 := by
          have h := (loadTransitiveDependencies_anyStep env fuel deps s3).2
          rw [hltd] at h
          obtain ⟨t, ht⟩ := h
          obtain ⟨t3, ht3⟩ := h3
          exact ⟨t3 ++ t, by rw [ht, ht3, List.append_assoc, List.cons_append]⟩
        cases rt with
        | error h2 =>
          obtain ⟨t4, ht4⟩ := h4
          rw [ht4]
          exact nrbv_append_validate s1.trace t4 h1
        | ok u2 =>
          cases u2
          obtain ⟨t4, ht4⟩ := h4
          have hw : (Config.WriteChecksum env c s4).2.trace
              = s4.trace ++ [Ev.wroteChecksum] := rfl
          dsimp only
          rw [hw, ht4, List.append_assoc, List.cons_append]
          exact nrbv_append_validate s1.trace _ h1

/-- Whether a declaration entry survives the per entry loading checks:
its import field is present and its Dep validates. -/
def goodEntry (e : DepEntry) : Bool :=
  match e.importPath with
  | none => false
  | some imp => (depValidate (buildDep imp e)).isNone

theorem addDepsTree_ok_good (env : Env) (modified : Bool) :
    ∀ (l : List (String × DepEntry)) (acc : List (String × Dep)) (s s2 : St)
      (acc2 : List (String × Dep)),
      addDepsTree env modified l acc s = (s2, .ok (.ok acc2)) →
      ∀ p ∈ l, goodEntry p.2 = true := by
  intro l
  induction l with
  | nil => intro acc s s2 acc2 _ p hp; simp at hp
  | cons q rest ih =>
    intro acc s s2 acc2 hrun p hp
    obtain ⟨k, entry⟩ := q
    rw [addDepsTree] at hrun
    cases him : entry.importPath with
    | none =>
      rw [him] at hrun
      exact absurd hrun (by simp)
    | some imp =>
      rw [him] at hrun
      dsimp only at hrun
      cases hv : depValidate (buildDep imp entry) with
      | some e =>
        rw [hv] at hrun
        exact absurd hrun (by simp)
      | none =>
        rw [hv] at hrun
        rcases List.mem_cons.mp hp with hpe | hprest
        · subst hpe
          simp only [goodEntry, him, hv, Option.isNone_none]
        · exact ih _ _ _ _ hrun p hprest

/-- When some declared entry is bad, LoadDependencyModel never returns a
dependency set: it stops with a fault or hands back the first error. -/
theorem LoadDependencyModel_bad (env : Env) (c : Config) (s : St)
    (hbad : ∃ p ∈ (c.DepsTree.getD []) ++ (c.DevDepsTree.getD []),
      goodEntry p.2 = false) :
    ∀ c2 depsOpt,
      (LoadDependencyModel env c s).2 ≠ .ok (c2, .ok depsOpt) := by
  intro c2 depsOpt
  simp only [LoadDependencyModel]
  split
  · rename_i htotal
    obtain ⟨p, hp, hpgood⟩ := hbad
    exfalso
    have hdeps : c.DepsTree.getD [] = [] := by
      cases hdt : c.DepsTree with
      | none => rfl
      | some t =>
        rw [hdt] at htotal
        cases t with
        | nil => rfl
        | cons a b => simp [keysLen] at htotal
    have hdev : c.DevDepsTree.getD [] = [] := by
      cases hdt : c.DevDepsTree with
      | none => rfl
      | some t =>
        rw [hdt] at htotal
        cases t with
        | nil => rfl
        | cons a b => simp [keysLen] at htotal
    rw [hdeps, hdev] at hp
    simp at hp
  · rcases h1 : addDepsTree env (Config.modifiedChecksum env c s.marker).2
        (c.DepsTree.getD []) [] s with ⟨s1, r1⟩
    cases r1 with
    | error h => simp
    | ok r1b =>
      cases r1b with
      | error e => simp
      | ok acc1 =>
        dsimp only
        cases hdt : c.DepsTree with
        | none => simp
        | some tmain =>
          dsimp only
          rcases h2 : addDepsTree env (Config.modifiedChecksum env c s.marker).2
              (c.DevDepsTree.getD []) acc1 s1 with ⟨s2, r2⟩
          cases r2 with
          | error h => simp
          | ok r2b =>
            cases r2b with
            | error e => simp
            | ok acc2 =>
              exfalso
              obtain ⟨p, hp, hpgood⟩ := hbad
              rcases List.mem_append.mp hp with hpm | hpd
              · have := addDepsTree_ok_good env
                  (Config.modifiedChecksum env c s.marker).2
                  (c.DepsTree.getD []) [] s s1 acc1 h1 p hpm
                rw [this] at hpgood
                exact absurd hpgood (by simp)
              · have := addDepsTree_ok_good env
                  (Config.modifiedChecksum env c s.marker).2
                  (c.DevDepsTree.getD []) acc1 s1 s2 acc2 h2 p hpd
                rw [this] at hpgood
                exact absurd hpgood (by simp)

/-- C2: in every run, no retrieval happens before the whole set validation
has completed; and when some declared entry of the root declaration is
missing a required field, the whole run performs zero retrievals. -/
theorem C2_no_retrieval_before_validation (env : Env) (fuel : Nat) :
    noRetrieveBeforeValidate (runMain env fuel).1.trace = true
    ∧ ((∃ p ∈ (env.rootDecl.deps.getD []) ++ (env.rootDecl.devDeps.getD []),
          goodEntry p.2 = false) →
        (runMain env fuel).1.trace.all (fun e => !(isRetrieve e)) = true) := by
  constructor
  · unfold runMain
    rcases hld : loadDependencies env fuel (initSt env) with ⟨s, r⟩
    have h := loadDependencies_nrbv env fuel (initSt env) (by rfl)
    rw [hld] at h
    cases r with
    | error h2 => exact h
    | ok p =>
      obtain ⟨c, depsOpt⟩ := p
      cases depsOpt with
      | none => exact h
      | some deps => exact h
  · intro hbad
    unfold runMain loadDependencies
    rcases hc : loadConfiguration env (initSt env) with ⟨s1, rc⟩
    have h1 : s1.trace.all isInsert = true := by
      have h := (loadConfiguration_loadStep env (initSt env)).2
      rw [hc] at h
      obtain ⟨t, ht, hall⟩ := h
      rw [ht]
      simpa [initSt] using hall
    have hnotok : ∀ c2 depsOpt,
        (loadConfiguration env (initSt env)).2 ≠ .ok (c2, depsOpt) := by
      intro c2 depsOpt
      rw [loadConfiguration]
      rcases hl : LoadDependencyModel env (NewConfig env.rootDecl env.rootBytes)
          ((NewConfig env.rootDecl env.rootBytes).InitRepo
            { initSt env with graph := NewGraph }) with ⟨sx, rx⟩
      cases rx with
      | error hx => simp
      | ok px =>
        obtain ⟨cx, rx2⟩ := px
        cases rx2 with
        | error e => simp
        | ok dOptx =>
          have h := LoadDependencyModel_bad env
            (NewConfig env.rootDecl env.rootBytes)
            ((NewConfig env.rootDecl env.rootBytes).InitRepo
              { initSt env with graph := NewGraph }) hbad cx dOptx
          rw [hl] at h
          exact absurd rfl h
    cases rc with
    | error h2 => exact all_inserts_no_retrieve s1.trace h1
    | ok p =>
      obtain ⟨c, depsOpt⟩ := p
      rw [hc] at hnotok
      exact absurd rfl (hnotok c depsOpt)

/-- C2 witness: a run whose root declaration contains an entry with an
unresolvable SCM kind completes validation before any retrieval and, being
invalid, performs zero retrievals. -/
theorem C2_no_retrieval_before_validation_witness :
    noRetrieveBeforeValidate (runMain envTwoBad 3).1.trace = true
    ∧ (runMain envTwoBad 3).1.trace.all (fun e => !(isRetrieve e)) = true :=
  ⟨(C2_no_retrieval_before_validation envTwoBad 3).1,
   (C2_no_retrieval_before_validation envTwoBad 3).2
     ⟨("b", entryX), by decide, by decide⟩⟩

/-- The number of declared entries of the root declaration that fail the
per entry loading checks. -/
def badCount (env : Env) : Nat :=
  (((env.rootDecl.deps.getD []) ++ (env.rootDecl.devDeps.getD [])).filter
    (fun p => !(goodEntry p.2))).length

/-- C3 counterexample: with three declared dependencies of which two are
invalid at the Dep field level, the run reports only the first error and
exits with status one, not with the invalid count two: per entry validation
during model loading is fail fast. -/
theorem C3_counterexample :
    (runMain envTwoBad 3).2 = .error (.exited 1)
    ∧ badCount envTwoBad = 2
    ∧ (1 : Nat) ≠ 2 :=
  ⟨rfl, rfl, by decide⟩

/-- C3 (amended): errors found by the whole set validation are reported as
one batch of exactly k errors, and the process exit status equals k; errors
caught by the per entry validation during model loading are fail fast
instead, aborting with exit status one at the first one. -/
theorem C3_batch_exit_count (env : Env) (fuel : Nat) (c : Config)
    (deps : Dependencies) (k : Nat)
    (hload : (loadConfiguration env (initSt env)).2 = .ok (c, some deps))
    (hk : deps.Validate.length = k) (hkpos : 0 < k) :
    (runMain env fuel).2 = .error (.exited k)
    ∧ Ev.reported k ∈ (runMain env fuel).1.trace := by
  unfold runMain loadDependencies
  rcases hc : loadConfiguration env (initSt env) with ⟨s1, rc⟩
  rw [hc] at hload
  dsimp only at hload
  subst hload
  dsimp only
  have hpos : deps.Validate.length > 0 := by rw [hk]; exact hkpos
  rw [failWith, if_pos hpos, hk]
  constructor
  · rfl
  · simp

/-- The dependency record built for the duplicated entry of envDup3. -/
def depGXf : Dep := { Import := "github.com/x/y", Scm := some "git", fetch := true }

/-- The configuration loadConfiguration hands back for envDup3. -/
def cDup3 : Config :=
  { Checksum := some [7]
    Repository := ""
    DepsTree := some [("a", entryGX), ("b", entryGX), ("c", entryGX)]
    DevDepsTree := none
    declBytes := [7] }

/-- The dependency set loadConfiguration hands back for envDup3. -/
def depsDup3 : Dependencies :=
  mkDependencies [("a", depGXf), ("b", depGXf), ("c", depGXf)]

/-- C3 witness at a concrete input: three entries with the same import pass
the per entry checks; the whole set validation finds the two duplicates and
the run reports the batch of two and exits with status two. -/
theorem C3_batch_exit_count_witness :
    (runMain envDup3 3).2 = .error (.exited 2)
    ∧ Ev.reported 2 ∈ (runMain envDup3 3).1.trace :=
  C3_batch_exit_count envDup3 3 cDup3 depsDup3 2 rfl rfl (by decide)

/-- Recognizer of successful results. -/
def isOkRes {α : Type} : Except Halt α → Bool
  | .ok _ => true
  | .error _ => false

theorem checksum_of_fresh (env : Env) (c : Config) (hc : c.Checksum = none) :
    Config.checksum env c
      = ({ c with Checksum := some (env.md5 c.declBytes) },
         env.hexE (env.md5 c.declBytes)) := by
  rw [Config.checksum, hc]

theorem LoadDependencyModel_some_config (env : Env) (c : Config) (s : St)
    (s2 : St) (c2 : Config) (deps : Dependencies)
    (h : LoadDependencyModel env c s = (s2, .ok (c2, .ok (some deps)))) :
    c2 = (Config.checksum env c).1 := by
  simp only [LoadDependencyModel] at h
  split at h
  · exact absurd h (by simp)
  · rcases h1 : addDepsTree env (Config.modifiedChecksum env c s.marker).2
        (c.DepsTree.getD []) [] s with ⟨s1, r1⟩
    rw [h1] at h
    cases r1 with
    | error h2 => exact absurd h (by simp)
    | ok r1b =>
      cases r1b with
      | error e => exact absurd h (by simp)
      | ok acc1 =>
        dsimp only at h
        cases hdt : c.DepsTree with
        | none => rw [hdt] at h; exact absurd h (by simp)
        | some tmain =>
          rw [hdt] at h
          dsimp only at h
          rcases h2 : addDepsTree env (Config.modifiedChecksum env c s.marker).2
              (c.DevDepsTree.getD []) acc1 s1 with ⟨s3, r2⟩
          rw [h2] at h
          cases r2 with
          | error h3 => exact absurd h (by simp)
          | ok r2b =>
            cases r2b with
            | error e => exact absurd h (by simp)
            | ok acc2 =>
              dsimp only at h
              have := (Prod.mk.injEq _ _ _ _ ▸ h).2
              have h4 : (Config.modifiedChecksum env c s.marker).1 = c2 := by
                have h5 := this
                simp only [Except.ok.injEq, Prod.mk.injEq] at h5
                exact h5.1
              rw [← h4]
              rfl

theorem loadConfiguration_checksum (env : Env) (s s1 : St) (c1 : Config)
    (deps1 : Dependencies)
    (h : loadConfiguration env s = (s1, .ok (c1, some deps1))) :
    (Config.checksum env c1).2 = env.hexE (env.md5 env.rootBytes) := by
  rw [loadConfiguration] at h
  rcases hl : LoadDependencyModel env (NewConfig env.rootDecl env.rootBytes)
      ((NewConfig env.rootDecl env.rootBytes).InitRepo
        { s with graph := NewGraph }) with ⟨sx, rx⟩
  rw [hl] at h
  cases rx with
  | error hx => exact absurd h (by simp)
  | ok px =>
    obtain ⟨cx, rx2⟩ := px
    cases rx2 with
    | error e => exact absurd h (by simp)
    | ok dOptx =>
      dsimp only at h
      have hcx : cx = c1 ∧ dOptx = some deps1 := by
        have h2 := (Prod.mk.injEq _ _ _ _ ▸ h).2
        simp only [Except.ok.injEq, Prod.mk.injEq] at h2
        exact h2
      obtain ⟨hcxe, hde⟩ := hcx
      subst hcxe
      cases dOptx with
      | none => simp at hde
      | some depsx =>
        have hc1 := LoadDependencyModel_some_config env
          (NewConfig env.rootDecl env.rootBytes) _ sx cx depsx hl
        rw [hc1, checksum_of_fresh env (NewConfig env.rootDecl env.rootBytes) rfl]
        rw [Config.checksum]
        rfl

theorem loadDependencies_ok_marker (env : Env) (fuel : Nat) (s s2 : St)
    (c : Config) (deps : Dependencies)
    (h : loadDependencies env fuel s = (s2, .ok (c, some deps))) :
    s2.marker = some (env.hexE (env.md5 env.rootBytes)) := by
  rw [loadDependencies] at h
  rcases hc : loadConfiguration env s with ⟨s1, rc⟩
  rw [hc] at h
  cases rc with
  | error h2 => exact absurd h (by simp)
  | ok p =>
    obtain ⟨c1, depsOpt⟩ := p
    cases depsOpt with
    | none => exact absurd h (by simp)
    | some deps1 =>
      dsimp only at h
      rcases hfw : failWith deps1.Validate
          { s1 with trace := s1.trace ++ [Ev.validate] } with ⟨s3, rf⟩
      rw [hfw] at h
      cases rf with
      | error h2 => exact absurd h (by simp)
      | ok u =>
        cases u
        dsimp only at h
        rcases hltd : loadTransitiveDependencies env fuel deps1 s3 with ⟨s4, rt⟩
        rw [hltd] at h
        cases rt with
        | error h2 => exact absurd h (by simp)
        | ok u2 =>
          cases u2
          dsimp only at h
          have hs2 : s2 = (Config.WriteChecksum env c1 s4).2 :=
            ((Prod.mk.injEq _ _ _ _ ▸ h).1).symm
          rw [hs2, Config.WriteChecksum]
          dsimp only
          rw [loadConfiguration_checksum env s s1 c1 deps1 hc]

theorem runMain_ok_marker (env : Env) (fuel : Nat)
    (hok : isOkRes (runMain env fuel).2 = true) :
    (runMain env fuel).1.marker = some (env.hexE (env.md5 env.rootBytes)) := by
  unfold runMain at hok ⊢
  rcases hld : loadDependencies env fuel (initSt env) with ⟨s, r⟩
  cases r with
  | error h2 => rw [hld] at hok; simp [isOkRes] at hok
  | ok p =>
    obtain ⟨c, depsOpt⟩ := p
    cases depsOpt with
    | none => rw [hld] at hok; simp [isOkRes] at hok
    | some deps =>
      exact loadDependencies_ok_marker env fuel (initSt env) s c deps hld

/-- C5: modifiedChecksum is true exactly when no marker exists or the
stored bytes differ from the current checksum of the declaration file; in
particular it is true on a first run (no marker), and false on a repeated
run whose marker is the one a prior successful run wrote for the unchanged
declaration content. -/
theorem C5_modified_checksum (env : Env) (c : Config) (marker : Option Bytes)
    (fuel : Nat) (hc : c.Checksum = none)
    (hok : isOkRes (runMain env fuel).2 = true) :
    ((Config.modifiedChecksum env c marker).2 = true ↔
      (marker = none ∨ marker ≠ some (env.hexE (env.md5 c.declBytes))))
    ∧ (Config.modifiedChecksum env c none).2 = true
    ∧ (Config.modifiedChecksum env (NewConfig env.rootDecl env.rootBytes)
        (runMain env fuel).1.marker).2 = false := by
  refine ⟨?_, ?_, ?_⟩
  · rw [Config.modifiedChecksum, checksum_of_fresh env c hc]
    cases marker with
    | none => simp
    | some b => simp [bne_iff_ne]
  · rw [Config.modifiedChecksum, checksum_of_fresh env c hc]
    simp
  · rw [runMain_ok_marker env fuel hok, Config.modifiedChecksum,
      checksum_of_fresh env (NewConfig env.rootDecl env.rootBytes) rfl]
    simp
    rfl

/-- The fresh configuration of the C5 witness. -/
def cW5 : Config :=
  { Checksum := none
    Repository := ""
    DepsTree := none
    DevDepsTree := none
    declBytes := [5] }

/-- C5 witness at a concrete input: a marker holding other bytes makes
modifiedChecksum true, the absent marker makes it true, and the marker the
successful envOne run wrote makes it false for the unchanged declaration. -/
theorem C5_modified_checksum_witness :
    ((Config.modifiedChecksum envOne cW5 (some [1])).2 = true ↔
      (some [1] = none
        ∨ some [1] ≠ some (envOne.hexE (envOne.md5 cW5.declBytes))))
    ∧ (Config.modifiedChecksum envOne cW5 none).2 = true
    ∧ (Config.modifiedChecksum envOne
        (NewConfig envOne.rootDecl envOne.rootBytes)
        (runMain envOne 3).1.marker).2 = false :=
  C5_modified_checksum envOne cW5 (some [1]) 3 rfl rfl

/-- The checksum gate as a pure function of the declaration bytes and the
marker on disk: modified when no marker exists or its bytes differ from the
hex encoded digest of the declaration. -/
def pureModified (env : Env) (declBytes : Bytes) (marker : Option Bytes) :
    Bool :=
  marker.isNone || (marker.getD [] != env.hexE (env.md5 declBytes))

theorem modifiedChecksum_fresh (env : Env) (c : Config) (marker : Option Bytes)
    (hc : c.Checksum = none) :
    (Config.modifiedChecksum env c marker).2
      = pureModified env c.declBytes marker := by
  rw [Config.modifiedChecksum, checksum_of_fresh env c hc, pureModified]

/-- The ordered entries of a declaration: the main table then the dev
table. -/
def specEntries (f : DeclFile) : List (String × DepEntry) :=
  f.deps.getD [] ++ f.devDeps.getD []

/-- The Dep a well formed entry loads to, fetch gate included; written from
the words of the specification for the refinement claim about the
traversal. -/
def specDep (env : Env) (modified : Bool) (p : String × DepEntry) : Dep :=
  { buildDep (p.2.importPath.getD "") p.2 with
    fetch := modified || !(env.vendorExists.contains (p.2.importPath.getD "")) }

/-- The retrieval events of one Dep per the specification: one retrieval
when its fetch gate is set, none otherwise. -/
def getEvs (d : Dep) : List Ev :=
  if d.fetch then [Ev.retrieve d.Import] else []

/-- The checkout events of one Dep per the specification: one pin checkout
when a checkout spec is declared, none otherwise. -/
def checkoutEvs (d : Dep) : List Ev :=
  if d.CheckoutType ≠ "" then
    [Ev.checkout d.Import d.CheckoutType d.CheckoutSpec]
  else []

/-- The insert events of loading the nested declaration of a fetched Dep:
none when it owns no declaration or an empty one, otherwise one insertion
per nested entry in declaration order. -/
def nestedSpecEvents (env : Env) (d : Dep) : List Ev :=
  match env.nestedDecl d.Import with
  | none => []
  | some f =>
    if keysLen f.deps + keysLen f.devDeps = 0 then []
    else (specEntries f).map (fun p => Ev.insert (p.2.importPath.getD ""))

/-- The nested dependency list of a fetched Dep per the specification, or
nothing when it owns no declaration or an empty one. -/
def nestedSpecDeps (env : Env) (marker : Option Bytes) (d : Dep) :
    Option (List Dep) :=
  match env.nestedDecl d.Import with
  | none => none
  | some f =>
    if keysLen f.deps + keysLen f.devDeps = 0 then none
    else some ((specEntries f).map
      (specDep env (pureModified env (env.nestedBytes d.Import) marker)))

/-- Following the words of the specification, section 4.5, for one Dep at
the current level: fetch, then pin checkout if declared, then, if the Dep
owns a nested declaration, load its nested set (the insert events) and
fully recurse into it before the next sibling. -/
def dfsDepTrace (env : Env) (marker : Option Bytes)
    (recurseSpec : List Dep → List Ev) (d : Dep) : List Ev :=
  getEvs d
  ++ checkoutEvs d
  ++ (if d.fetch then
        nestedSpecEvents env d
        ++ (match nestedSpecDeps env marker d with
            | none => []
            | some ds => recurseSpec ds)
      else [])

/-- The concatenation of the per Dep traces in declaration order. -/
def dfsList (step : Dep → List Ev) : List Dep → List Ev
  | [] => []
  | d :: rest => step d ++ dfsList step rest

/-- The full depth first pre order trace of the transitive resolution per
the specification, bounded by the model fuel. -/
def dfsSetTrace (env : Env) (marker : Option Bytes) :
    Nat → List Dep → List Ev
  | 0, _ => []
  | fuel + 1, deps =>
    dfsList (dfsDepTrace env marker (dfsSetTrace env marker fuel)) deps

theorem DepGet_ok_spec (env : Env) (d : Dep) (s s1 : St)
    (h : Dep.Get env d s = (s1, .ok ())) :
    s1.trace = s.trace ++ getEvs d ∧ s1.marker = s.marker := by
  rw [Dep.Get] at h
  by_cases hf : d.fetch = true
  · rw [if_pos hf] at h
    dsimp only at h
    split at h
    · exact absurd h (by simp)
    · have hs1 : s1 = { s with trace := s.trace ++ [Ev.retrieve d.Import] } :=
        ((Prod.mk.injEq _ _ _ _ ▸ h).1).symm
      rw [hs1, getEvs, if_pos hf]
      exact ⟨rfl, rfl⟩
  · rw [if_neg hf] at h
    have hs1 : s1 = s := ((Prod.mk.injEq _ _ _ _ ▸ h).1).symm
    rw [hs1, getEvs, if_neg hf]
    exact ⟨by simp, rfl⟩

theorem addDepsTree_ok_spec (env : Env) (modified : Bool) :
    ∀ (l : List (String × DepEntry)) (acc : List (String × Dep)) (s s2 : St)
      (acc2 : List (String × Dep)),
      addDepsTree env modified l acc s = (s2, .ok (.ok acc2)) →
      acc2 = acc ++ l.map (fun p => (p.1, specDep env modified p))
      ∧ s2.trace = s.trace ++ l.map (fun p => Ev.insert (p.2.importPath.getD ""))
      ∧ s2.marker = s.marker := by
  intro l
  induction l with
  | nil =>
    intro acc s s2 acc2 h
    rw [addDepsTree] at h
    have h1 := Prod.mk.injEq _ _ _ _ ▸ h
    have hs : s = s2 := h1.1
    have ha : acc = acc2 := by
      have := h1.2
      simp only [Except.ok.injEq] at this
      exact this
    subst hs
    subst ha
    simp
  | cons q rest ih =>
    intro acc s s2 acc2 h
    obtain ⟨k, entry⟩ := q
    rw [addDepsTree] at h
    cases him : entry.importPath with
    | none =>
      rw [him] at h
      exact absurd h (by simp)
    | some imp =>
      rw [him] at h
      dsimp only at h
      cases hv : depValidate (buildDep imp entry) with
      | some e =>
        rw [hv] at h
        exact absurd h (by simp)
      | none =>
        rw [hv] at h
        obtain ⟨ha, ht, hm⟩ := ih _ _ _ _ h
        refine ⟨?_, ?_, hm⟩
        · rw [ha, List.map_cons, List.append_assoc]
          simp only [List.singleton_append, specDep, him, Option.getD_some]
        · rw [ht]
          dsimp only
          rw [List.map_cons, List.append_assoc]
          simp only [List.singleton_append, him, Option.getD_some]

theorem LoadDependencyModel_ok_spec (env : Env) (c : Config) (s : St)
    (s2 : St) (c2 : Config) (dOpt : Option Dependencies)
    (hc : c.Checksum = none)
    (h : LoadDependencyModel env c s = (s2, .ok (c2, .ok dOpt))) :
    (dOpt = none ∧ s2 = s ∧ keysLen c.DepsTree + keysLen c.DevDepsTree = 0)
    ∨ (∃ deps, keysLen c.DepsTree + keysLen c.DevDepsTree ≠ 0
        ∧ dOpt = some deps
        ∧ deps.DepList = (c.DepsTree.getD [] ++ c.DevDepsTree.getD []).map
            (specDep env (pureModified env c.declBytes s.marker))
        ∧ s2.trace = s.trace
            ++ (c.DepsTree.getD [] ++ c.DevDepsTree.getD []).map
              (fun p => Ev.insert (p.2.importPath.getD ""))
        ∧ s2.marker = s.marker) := by
  simp only [LoadDependencyModel] at h
  split at h
  · left
    rename_i htot
    have h1 := Prod.mk.injEq _ _ _ _ ▸ h
    have hd : dOpt = none := by
      have := h1.2
      simp only [Except.ok.injEq, Prod.mk.injEq] at this
      exact this.2.symm
    exact ⟨hd, h1.1.symm, htot⟩
  · right
    rename_i htot
    rcases h1 : addDepsTree env (Config.modifiedChecksum env c s.marker).2
        (c.DepsTree.getD []) [] s with ⟨s1, r1⟩
    rw [h1] at h
    cases r1 with
    | error h2 => exact absurd h (by simp)
    | ok r1b =>
      cases r1b with
      | error e => exact absurd h (by simp)
      | ok acc1 =>
        dsimp only at h
        cases hdt : c.DepsTree with
        | none => rw [hdt] at h; exact absurd h (by simp)
        | some tmain =>
          rw [hdt] at h
          dsimp only at h
          rcases h2 : addDepsTree env (Config.modifiedChecksum env c s.marker).2
              (c.DevDepsTree.getD []) acc1 s1 with ⟨s3, r2⟩
          rw [h2] at h
          cases r2 with
          | error h3 => exact absurd h (by simp)
          | ok r2b =>
            cases r2b with
            | error e => exact absurd h (by simp)
            | ok acc2 =>
              dsimp only at h
              have hinj := Prod.mk.injEq _ _ _ _ ▸ h
              have hs3 : s3 = s2 := hinj.1
              have hd : dOpt = some (mkDependencies acc2) := by
                have := hinj.2
                simp only [Except.ok.injEq, Prod.mk.injEq] at this
                exact this.2.symm
              obtain ⟨ha1, ht1, hm1⟩ := addDepsTree_ok_spec env _ _ _ _ _ _ h1
              obtain ⟨ha2, ht2, hm2⟩ := addDepsTree_ok_spec env _ _ _ _ _ _ h2
              refine ⟨mkDependencies acc2, hdt ▸ htot, hd, ?_, ?_, ?_⟩
              · rw [mkDependencies]
                dsimp only
                rw [ha2, ha1, modifiedChecksum_fresh env c s.marker hc]
                simp [List.map_map, List.map_append, hdt, Function.comp_def]
              · rw [← hs3, ht2, ht1]
                simp [List.map_append, List.append_assoc, hdt]
              · rw [← hs3, hm2, hm1]

theorem LoadTransitiveDeps_ok_spec (env : Env) (d : Dep) (s s2 : St)
    (dOpt : Option Dependencies)
    (h : Dep.LoadTransitiveDeps env d s = (s2, .ok (.ok dOpt))) :
    s2.marker = s.marker
    ∧ s2.trace = s.trace ++ nestedSpecEvents env d
    ∧ ((dOpt = none ∧ nestedSpecDeps env s.marker d = none)
       ∨ (∃ tdeps, dOpt = some tdeps
           ∧ nestedSpecDeps env s.marker d = some tdeps.DepList)) := by
  rw [Dep.LoadTransitiveDeps] at h
  cases hnd : env.nestedDecl d.Import with
  | none =>
    rw [hnd] at h
    have h1 := Prod.mk.injEq _ _ _ _ ▸ h
    have hs : s = s2 := h1.1
    have hdo : dOpt = none := by
      have := h1.2
      simp only [Except.ok.injEq] at this
      exact this.symm
    subst hs
    subst hdo
    exact ⟨rfl, by simp [nestedSpecEvents, hnd],
      Or.inl ⟨rfl, by simp [nestedSpecDeps, hnd]⟩⟩
  | some f =>
    rw [hnd] at h
    dsimp only at h
    rcases hl : LoadDependencyModel env
        (NewConfig f (env.nestedBytes d.Import)) s with ⟨sx, rx⟩
    rw [hl] at h
    cases rx with
    | error hx => exact absurd h (by simp)
    | ok px =>
      obtain ⟨cx, rx2⟩ := px
      dsimp only at h
      have h1 := Prod.mk.injEq _ _ _ _ ▸ h
      have hsx : sx = s2 := h1.1
      have hrx : rx2 = .ok dOpt := by
        have h2 := h1.2
        simp only [Except.ok.injEq] at h2
        exact h2
      subst hrx
      rcases LoadDependencyModel_ok_spec env
          (NewConfig f (env.nestedBytes d.Import)) s sx cx dOpt rfl hl with
        ⟨hdo, hsxs, htot0⟩ | ⟨deps, htot, hdo, hdl, htr, hmk⟩
      · have htot0b : keysLen f.deps + keysLen f.devDeps = 0 := htot0
        subst hdo
        refine ⟨?_, ?_, Or.inl ⟨rfl, ?_⟩⟩
        · rw [← hsx, hsxs]
        · rw [← hsx, hsxs]
          have hev : nestedSpecEvents env d = [] := by
            simp [nestedSpecEvents, hnd, htot0b]
          rw [hev]
          simp
        · simp [nestedSpecDeps, hnd, htot0b]
      · have htotb : ¬ (keysLen f.deps + keysLen f.devDeps = 0) := htot
        refine ⟨?_, ?_, Or.inr ⟨deps, hdo, ?_⟩⟩
        · rw [← hsx]
          exact hmk
        · rw [← hsx, htr]
          have hev : nestedSpecEvents env d
              = (specEntries f).map (fun p => Ev.insert (p.2.importPath.getD "")) := by
            simp [nestedSpecEvents, hnd, htotb]
          rw [hev]
          rfl
        · have hnv : nestedSpecDeps env s.marker d
              = some ((specEntries f).map
                (specDep env (pureModified env (env.nestedBytes d.Import) s.marker))) := by
            simp [nestedSpecDeps, hnd, htotb]
          rw [hnv, hdl]
          rfl

theorem depRoutine_spec (env : Env)
    (recurse : Dependencies → St → St × Except Halt Unit)
    (recurseSpec : Option Bytes → List Dep → List Ev)
    (hrec : ∀ tdeps sa sb, recurse tdeps sa = (sb, .ok ()) →
      sb.trace = sa.trace ++ recurseSpec sa.marker tdeps.DepList
      ∧ sb.marker = sa.marker) :
    ∀ (d : Dep) (s s2 : St), depRoutine env recurse d s = (s2, .ok ()) →
      s2.trace = s.trace ++ dfsDepTrace env s.marker (recurseSpec s.marker) d
      ∧ s2.marker = s.marker := by
  intro d s s2 h
  rw [depRoutine] at h
  rcases hg : Dep.Get env d s with ⟨s1, rg⟩
  rw [hg] at h
  cases rg with
  | error h2 => exact absurd h (by simp)
  | ok u =>
    cases u
    dsimp only at h
    obtain ⟨hgt, hgm⟩ := DepGet_ok_spec env d s s1 hg
    set s2c := if d.CheckoutType ≠ "" then
        { s1 with trace := s1.trace ++
            [Ev.checkout d.Import d.CheckoutType d.CheckoutSpec] }
      else s1 with hs2cdef
    have hct : s2c.trace = s1.trace ++ checkoutEvs d ∧ s2c.marker = s1.marker := by
      by_cases hco : d.CheckoutType ≠ ""
      · rw [hs2cdef, if_pos hco, checkoutEvs, if_pos hco]
        exact ⟨rfl, rfl⟩
      · rw [hs2cdef, if_neg hco, checkoutEvs, if_neg hco]
        exact ⟨by simp, rfl⟩
    have hmc : s2c.marker = s.marker := hct.2.trans hgm
    have htc : s2c.trace = s.trace ++ (getEvs d ++ checkoutEvs d) := by
      rw [hct.1, hgt, List.append_assoc]
    by_cases hf : d.fetch = true
    · rw [if_pos hf] at h
      rcases hl : Dep.LoadTransitiveDeps env d s2c with ⟨s3, rl⟩
      rw [hl] at h
      cases rl with
      | error h2 => exact absurd h (by simp)
      | ok rl2 =>
        cases rl2 with
        | error e => exact absurd h (by simp)
        | ok dOpt =>
          obtain ⟨hm3, ht3, hcase⟩ := LoadTransitiveDeps_ok_spec env d s2c s3 dOpt hl
          rcases hcase with ⟨hdnone, hspec⟩ | ⟨tdeps, hdsome, hspec⟩
          · subst hdnone
            have h1 := Prod.mk.injEq _ _ _ _ ▸ h
            have hs3 : s3 = s2 := h1.1
            subst hs3
            rw [hmc] at hspec
            refine ⟨?_, hm3.trans hmc⟩
            rw [ht3, htc, dfsDepTrace, if_pos hf, hspec]
            simp [List.append_assoc]
          · subst hdsome
            obtain ⟨htr, hmr⟩ := hrec tdeps s3 s2 h
            rw [hmc] at hspec
            refine ⟨?_, (hmr.trans hm3).trans hmc⟩
            rw [htr, ht3, htc, hm3, hmc, dfsDepTrace, if_pos hf, hspec]
            simp [List.append_assoc]
    · rw [if_neg hf] at h
      have h1 := Prod.mk.injEq _ _ _ _ ▸ h
      have hs2e : s2c = s2 := h1.1
      subst hs2e
      have hf2 : d.fetch = false := by
        revert hf
        cases d.fetch <;> simp
      refine ⟨?_, hmc⟩
      rw [htc, dfsDepTrace, if_neg hf, getEvs, if_neg hf]
      simp

theorem visitList_spec (routine : Dep → St → St × Except Halt Unit)
    (routineSpec : Option Bytes → Dep → List Ev)
    (hr : ∀ d sa sb, routine d sa = (sb, .ok ()) →
      sb.trace = sa.trace ++ routineSpec sa.marker d ∧ sb.marker = sa.marker) :
    ∀ (l : List Dep) (s s2 : St), visitList routine l s = (s2, .ok ()) →
      s2.trace = s.trace ++ dfsList (routineSpec s.marker) l
      ∧ s2.marker = s.marker := by
  intro l
  induction l with
  | nil =>
    intro s s2 h
    rw [visitList] at h
    have h1 := Prod.mk.injEq _ _ _ _ ▸ h
    have hs : s = s2 := h1.1
    subst hs
    exact ⟨by simp [dfsList], rfl⟩
  | cons d rest ih =>
    intro s s2 h
    rw [visitList] at h
    rcases hg : routine d s with ⟨s1, rg⟩
    rw [hg] at h
    cases rg with
    | error h2 => exact absurd h (by simp)
    | ok u =>
      cases u
      obtain ⟨ht1, hm1⟩ := hr d s s1 hg
      obtain ⟨ht2, hm2⟩ := ih s1 s2 h
      refine ⟨?_, hm2.trans hm1⟩
      rw [ht2, ht1, hm1, dfsList, List.append_assoc]

theorem loadTransitiveDependencies_spec (env : Env) :
    ∀ (fuel : Nat) (tdeps : Dependencies) (s s2 : St),
      loadTransitiveDependencies env fuel tdeps s = (s2, .ok ()) →
      s2.trace = s.trace ++ dfsSetTrace env s.marker fuel tdeps.DepList
      ∧ s2.marker = s.marker := by
  intro fuel
  induction fuel with
  | zero =>
    intro tdeps s s2 h
    rw [loadTransitiveDependencies] at h
    exact absurd h (by simp)
  | succ f ih =>
    intro tdeps s s2 h
    rw [loadTransitiveDependencies] at h
    have hmain := visitList_spec
      (depRoutine env (loadTransitiveDependencies env f))
      (fun marker d => dfsDepTrace env marker (dfsSetTrace env marker f) d)
      (fun d sa sb hab => depRoutine_spec env
        (loadTransitiveDependencies env f)
        (fun marker ds => dfsSetTrace env marker f ds)
        (fun tds sx sy hxy => ih tds sx sy hxy) d sa sb hab)
      tdeps.DepList s s2 h
    rw [dfsSetTrace]
    exact hmain

/-- C8: the transitive resolution is a depth first pre order traversal in
declaration order. Whenever loadTransitiveDependencies completes, the
events it emitted are exactly the specification trace: for each Dep at a
level in declaration order, the retrieval when its fetch gate is set, then
the pin checkout when a checkout spec is declared, then the loading of its
nested declaration on the shared graph (the insert events) and the whole
recursive trace of the nested set, before the next sibling; the marker is
untouched by the traversal. -/
theorem C8_dfs_preorder (env : Env) (fuel : Nat) (deps : Dependencies)
    (s : St) (hok : (loadTransitiveDependencies env fuel deps s).2 = .ok ()) :
    (loadTransitiveDependencies env fuel deps s).1.trace
      = s.trace ++ dfsSetTrace env s.marker fuel deps.DepList
    ∧ (loadTransitiveDependencies env fuel deps s).1.marker = s.marker := by
  rcases h : loadTransitiveDependencies env fuel deps s with ⟨s2, r⟩
  rw [h] at hok
  dsimp only at hok
  subst hok
  exact loadTransitiveDependencies_spec env fuel deps s s2 h

/-- The dependency set of the C8 witness: one fetched dependency owning a
nested declaration. -/
def depsW8 : Dependencies := mkDependencies [("a", depGXf)]

/-- The starting state of the C8 witness. -/
def stW8 : St := { marker := none, trace := [], graph := NewGraph }

/-- C8 witness at a concrete input: one dependency whose nested declaration
holds one dependency of its own, traversed with fuel two. -/
theorem C8_dfs_preorder_witness :
    (loadTransitiveDependencies envNested 2 depsW8 stW8).1.trace
      = stW8.trace ++ dfsSetTrace envNested stW8.marker 2 depsW8.DepList
    ∧ (loadTransitiveDependencies envNested 2 depsW8 stW8).1.marker
        = stW8.marker :=
  C8_dfs_preorder envNested 2 depsW8 stW8 rfl

end Gopack
